import Mathlib

/-!
# Bank simulation (`Bank_Sim.cc`)

A shallow embedding of the single-teller bank simulation: `EventList::fill`
reads pairs of integers into a priority queue of events, `EventList::simulate`
drains the queue, and `main` glues the two together.

Modelling conventions.

* `int` is modelled twice. `body`, `simLoop` and `simulate` read `int` as a
  mathematical integer (`Int`); `body32`, `simLoop32` and `simulate32` are the
  same loop with every subtraction and addition wrapped around to 32 bits, as
  the compiled program computes them. The two agree as long as the values fit
  in an `int` (`simLoop32_agrees`). `count`, which starts at `0` and is only
  ever incremented, is a `Nat`.
* The input stream is the list of integer pairs that `is >> arrival >> time`
  extracts before the first extraction failure.
* `std::priority_queue<Event>` is modelled by the list of the events it holds.
  `push` appends, `pop` erases one copy of the event returned by `top`, and
  `top` may return any event that no other queued event precedes; which one is
  decided by an oracle `tie : Nat → Nat` consulted once per loop iteration, so
  that a statement for every `tie` is a statement for every tie-breaking
  behaviour of the heap.
* Standard output is kept as a log with one entry per loop iteration. An entry
  holds the line written, and in addition the event popped and the event
  pushed (if any) in that iteration.
* The single-server recurrence `d_i = max(t_i, d_{i-1}) + s_i`,
  `w_i = max(t_i, d_{i-1}) - t_i` is written down on its own (`departureTimes`,
  `waits`) and the loop of `simulate` is compared with it.
-/

namespace BankSim

/-! ## Data model -/

/-- Information needed for an arrival or departure event (`struct Event`). -/
structure Event where
  time : Int
  serving : Int
deriving DecidableEq, Repr

/-- Less-than operator for Events (`operator<`): opposite order on `time`. -/
def Event.lt (first second : Event) : Bool :=
  decide (second.time < first.time)

/-- Arrival and departure events that have not yet been processed
(`struct EventList`). -/
structure EventList where
  count : Nat
  events : List Event
deriving DecidableEq, Repr

/-- What `is >> arrival >> time` yields, pair after pair. -/
abbrev Stream := List (Int × Int)

/-! ## The priority queue -/

/-- Models `priority_queue::push`. -/
def push (events : List Event) (e : Event) : List Event :=
  events ++ [e]

/-- Models `priority_queue::pop` after `top` returned `e`. -/
def pop (events : List Event) (e : Event) : List Event :=
  events.erase e

/-- The events that `priority_queue::top` may return: those `e` of the queue
such that `e < x` holds for no queued `x`. -/
def tops (events : List Event) : List Event :=
  events.filter (fun e => events.all (fun x => !(Event.lt e x)))

/-- Models `priority_queue::top`, the candidate being selected by `choice`. The
result is `none` only for an empty queue. -/
def top (choice : Nat) (events : List Event) : Option Event :=
  (tops events)[choice % (tops events).length]?

/-! ## `EventList::fill` -/

/-- The effect of `throw 3` in `fill`: the integer thrown, the three values
written to the diagnostic on `cerr`, and the `EventList` as it is left. -/
structure Thrown where
  code : Int
  customer : Nat
  time : Int
  previous : Int
  list : EventList
deriving DecidableEq, Repr

/-- The `while (is >> arrival >> time)` loop of `fill`; `evn` is the local
`Event` that survives from one iteration to the next. -/
def fillLoop : Stream → Nat → Event → List Event → Except Thrown EventList
  | [], count, _, events => .ok ⟨count, events⟩
  | (arrival, time) :: rest, count, evn, events =>
    let count := count + 1
    let most_recent_time := evn.time
    let evn : Event := ⟨arrival, time⟩
    if most_recent_time > evn.time then
      .error ⟨3, count, evn.time, most_recent_time, ⟨count, events⟩⟩
    else
      fillLoop rest count evn (push events evn)

/-- Models `EventList::fill` on an `EventList` whose queue holds `events`. -/
def fill (is : Stream) (events : List Event) : Except Thrown EventList :=
  fillLoop is 0 ⟨0, 0⟩ events

/-! ## `EventList::simulate` -/

/-- A line written to standard output by the loop of `simulate`. -/
inductive Line where
  | arrival (time : Int)
  | departure (time : Int)
deriving DecidableEq, Repr

/-- The time value a line reports. -/
def Line.time : Line → Int
  | .arrival t => t
  | .departure t => t

/-- Whether a line is an arrival line. -/
def Line.isArrival : Line → Bool
  | .arrival _ => true
  | .departure _ => false

/-- Whether a line is a departure line. -/
def Line.isDeparture : Line → Bool
  | .arrival _ => false
  | .departure _ => true

/-- One loop iteration as recorded in the log: the event popped, the event
pushed (if any), and the line written. -/
structure Iter where
  popped : Event
  pushed : Option Event
  line : Line
deriving DecidableEq, Repr

/-- The local variables of `simulate`, the queue, and the log so far. -/
structure SimState where
  open_time : Int
  total_wait : Int
  events : List Event
  log : List Iter
deriving DecidableEq, Repr

/-- The lines written so far. -/
def SimState.lines (st : SimState) : List Line :=
  st.log.map Iter.line

/-- The body of the `while` loop of `simulate`, `e` being the event returned by
`events.top()`, with `int` read as a mathematical integer. -/
def body (st : SimState) (e : Event) : SimState :=
  let events := pop st.events e
  if e.serving ≥ 0 then
    let open_time := max e.time st.open_time
    let total_wait := st.total_wait + (open_time - e.time)
    let open_time := open_time + e.serving
    let depart : Event := ⟨open_time, -1⟩
    { open_time := open_time
      total_wait := total_wait
      events := push events depart
      log := st.log ++ [⟨e, some depart, .arrival e.time⟩] }
  else
    { open_time := st.open_time
      total_wait := st.total_wait
      events := events
      log := st.log ++ [⟨e, none, .departure e.time⟩] }

/-- The `while (!events.empty())` loop of `simulate`, run for at most `fuel`
iterations; `none` when the fuel does not suffice. -/
def simLoop : Nat → (Nat → Nat) → SimState → Option SimState
  | 0, _, st => if st.events.isEmpty then some st else none
  | fuel + 1, tie, st =>
    if st.events.isEmpty then some st
    else
      match top (tie 0) st.events with
      | none => none
      | some e => simLoop fuel (fun n => tie (n + 1)) (body st e)

/-- The number of iterations the loop of `simulate` needs on a queue: two for
each event with `serving ≥ 0`, one for each event with `serving < 0`. -/
def iterations (events : List Event) : Nat :=
  2 * events.countP (fun e => decide (e.serving ≥ 0))
    + events.countP (fun e => decide (e.serving < 0))

/-- The final statistics block: the count printed, and the two operands of the
division `(double)total_wait/count` whose quotient is printed as the average. -/
structure Report where
  count : Nat
  dividend : Int
  divisor : Nat
deriving DecidableEq, Repr

/-- What `simulate` leaves behind: the final loop state and the statistics. -/
structure SimResult where
  final : SimState
  report : Report
deriving DecidableEq, Repr

/-- The lines written by the loop of `simulate`. -/
def SimResult.lines (r : SimResult) : List Line :=
  r.final.lines

/-- Models `EventList::simulate`. -/
def simulate (tie : Nat → Nat) (el : EventList) : Option SimResult :=
  match simLoop (iterations el.events) tie ⟨0, 0, el.events, []⟩ with
  | none => none
  | some st => some ⟨st, ⟨el.count, st.total_wait, el.count⟩⟩

/-! ## `EventList::simulate` on 32-bit `int` -/

/-- The largest value of a 32-bit `int`. -/
def INT_MAX : Int := 2147483647

/-- The value a 32-bit `int` holds after an operation whose mathematical result
is `x`: the representative of `x` modulo `2^32` between `-2^31` and
`2^31 - 1`. -/
def wrap32 (x : Int) : Int :=
  (x + 2147483648) % 4294967296 - 2147483648

/-- The body of the `while` loop of `simulate` as the compiled program computes
it: every subtraction and addition on `int` wraps around to 32 bits. -/
def body32 (st : SimState) (e : Event) : SimState :=
  let events := pop st.events e
  if e.serving ≥ 0 then
    let open_time := max e.time st.open_time
    let total_wait := wrap32 (st.total_wait + wrap32 (open_time - e.time))
    let open_time := wrap32 (open_time + e.serving)
    let depart : Event := ⟨open_time, -1⟩
    { open_time := open_time
      total_wait := total_wait
      events := push events depart
      log := st.log ++ [⟨e, some depart, .arrival e.time⟩] }
  else
    { open_time := st.open_time
      total_wait := st.total_wait
      events := events
      log := st.log ++ [⟨e, none, .departure e.time⟩] }

/-- The `while (!events.empty())` loop of `simulate` on 32-bit `int`, run for
at most `fuel` iterations; `none` when the fuel does not suffice. -/
def simLoop32 : Nat → (Nat → Nat) → SimState → Option SimState
  | 0, _, st => if st.events.isEmpty then some st else none
  | fuel + 1, tie, st =>
    if st.events.isEmpty then some st
    else
      match top (tie 0) st.events with
      | none => none
      | some e => simLoop32 fuel (fun n => tie (n + 1)) (body32 st e)

/-- Models `EventList::simulate` on 32-bit `int`. -/
def simulate32 (tie : Nat → Nat) (el : EventList) : Option SimResult :=
  match simLoop32 (iterations el.events) tie ⟨0, 0, el.events, []⟩ with
  | none => none
  | some st => some ⟨st, ⟨el.count, st.total_wait, el.count⟩⟩

/-! ## `main` -/

/-- How the program is invoked: without argument (records on standard input),
with one argument (a file that could be opened or not), or with more. -/
inductive Invocation where
  | stdin (is : Stream)
  | file (contents : Option Stream)
  | usage
deriving DecidableEq, Repr

/-- What a run of the program produces: the exit status, the event lines on
standard output, and the final statistics block when it is written. -/
structure Outcome where
  status : Int
  stdout : List Line
  statistics : Option Report
deriving DecidableEq, Repr

/-- The part of `main` after the stream has been chosen: `fill`, then
`simulate`, an `int` thrown on the way becoming the exit status. -/
def run (tie : Nat → Nat) (is : Stream) : Option Outcome :=
  match fill is [] with
  | .error t => some ⟨t.code, [], none⟩
  | .ok el =>
    match simulate tie el with
    | none => none
    | some r => some ⟨0, r.lines, some r.report⟩

/-- Models `main`. -/
def main (tie : Nat → Nat) : Invocation → Option Outcome
  | .stdin is => run tie is
  | .file none => some ⟨1, [], none⟩
  | .file (some is) => run tie is
  | .usage => some ⟨2, [], none⟩

/-! ## Reading the input and the log -/

/-- The arrival event that an input pair `(arrival_time, service_duration)`
stands for. -/
def Event.ofPair (p : Int × Int) : Event :=
  ⟨p.1, p.2⟩

/-- Whether an event is processed as a departure (`serving < 0`). -/
def Event.isDeparture (e : Event) : Bool :=
  decide (e.serving < 0)

/-- One step of the bookkeeping of spawned departures: `o` lists the departures
pushed by `simulate` and not yet processed. An iteration that processed an
arrival adds the departure it pushed; an iteration that processed a departure
takes that departure off the list, and the bookkeeping fails (`none`) when it
is not there. -/
def settle (o : Option (List Event)) (it : Iter) : Option (List Event) :=
  match o with
  | none => none
  | some pending =>
    if it.popped.isDeparture then
      if it.popped ∈ pending then some (pending.erase it.popped) else none
    else
      match it.pushed with
      | some d => some (pending ++ [d])
      | none => none

/-- The bookkeeping of spawned departures over a whole log. The result is
`some []` exactly when every event processed as a departure is matched with a
push of its own made by an earlier arrival iteration, no push being used
twice, and every pushed departure has been processed. -/
def replay (log : List Iter) : Option (List Event) :=
  log.foldl settle (some [])

/-! ## The states of the loop -/

/-- The states in which the loop test of `simulate` can be evaluated when the
queue initially holds `events`: the state at loop entry, and the state after
one more iteration, `e` being any event that `top` may return. -/
inductive Reachable (events : List Event) : SimState → Prop where
  | entry : Reachable events ⟨0, 0, events, []⟩
  | iteration (st : SimState) (e : Event) :
      Reachable events st → e ∈ tops st.events → Reachable events (body st e)

/-! ## The single-server recurrence -/

/-- The departure times `d_1, ..., d_n` of the recurrence
`d_i = max(t_i, d_{i-1}) + s_i` over the pairs `(t_i, s_i)`, the first argument
being `d_0`. -/
def departureTimes : Int → Stream → List Int
  | _, [] => []
  | d, (t, s) :: rest => (max t d + s) :: departureTimes (max t d + s) rest

/-- The waits `w_1, ..., w_n` with `w_i = max(t_i, d_{i-1}) - t_i`, where
`d_i = max(t_i, d_{i-1}) + s_i` and the first argument is `d_0`. -/
def waits : Int → Stream → List Int
  | _, [] => []
  | d, (t, s) :: rest => (max t d - t) :: waits (max t d + s) rest

/-- The last departure time `d_n` of the recurrence (`d_0` for no pair). -/
def lastDeparture (d : Int) (is : Stream) : Int :=
  is.foldl (fun d p => max p.1 d + p.2) d

/-- The pair `(time, serving)` of an event. -/
def Event.toPair (e : Event) : Int × Int :=
  (e.time, e.serving)

/-- The customers served so far: the pairs of the events with `serving ≥ 0`
that were popped, in the order of the log. -/
def served (log : List Iter) : Stream :=
  ((log.map Iter.popped).filter (fun e => decide (e.serving ≥ 0))).map Event.toPair

/-- The log entries of the arrival iterations when customers are served in the
order given, the first argument being `open_time` before the first of them:
customer `(t_i, s_i)` is popped, the departure at `d_i` is pushed, and the
arrival line carrying `t_i` is written. -/
def arrivalLog : Int → Stream → List Iter
  | _, [] => []
  | d, (t, s) :: rest =>
    ⟨⟨t, s⟩, some ⟨max t d + s, -1⟩, .arrival t⟩ :: arrivalLog (max t d + s) rest

/-- The exact quotient of the two operands of the division in the final
statistics; there is none when the divisor is 0. -/
def Report.average (r : Report) : Option ℚ :=
  if r.divisor = 0 then none else some ((r.dividend : ℚ) / (r.divisor : ℚ))

/-! ## The queue: what `top` returns -/

theorem mem_tops_iff (events : List Event) (e : Event) :
    e ∈ tops events ↔ e ∈ events ∧ ∀ x ∈ events, e.time ≤ x.time := by
  simp [tops, Event.lt]

theorem exists_least_time (events : List Event) (h : events ≠ []) :
    ∃ e ∈ events, ∀ x ∈ events, e.time ≤ x.time := by
  induction events with
  | nil => exact absurd rfl h
  | cons a rest ih =>
    by_cases hr : rest = []
    · subst hr
      exact ⟨a, by simp, by simp⟩
    · obtain ⟨m, hm, hle⟩ := ih hr
      by_cases ham : a.time ≤ m.time
      · refine ⟨a, by simp, ?_⟩
        intro x hx
        rcases List.mem_cons.mp hx with rfl | hx
        · exact le_refl _
        · exact le_trans ham (hle x hx)
      · refine ⟨m, List.mem_cons_of_mem _ hm, ?_⟩
        intro x hx
        rcases List.mem_cons.mp hx with rfl | hx
        · omega
        · exact hle x hx

theorem tops_ne_nil (events : List Event) (h : events ≠ []) : tops events ≠ [] := by
  obtain ⟨e, he, hle⟩ := exists_least_time events h
  exact List.ne_nil_of_mem ((mem_tops_iff events e).mpr ⟨he, hle⟩)

theorem top_mem_tops (choice : Nat) (events : List Event) (e : Event)
    (h : top choice events = some e) : e ∈ tops events := by
  unfold top at h
  exact List.getElem?_mem h

theorem top_isSome (choice : Nat) (events : List Event) (h : events ≠ []) :
    ∃ e, top choice events = some e := by
  have hpos : 0 < (tops events).length :=
    List.length_pos.mpr (tops_ne_nil events h)
  have hlt : choice % (tops events).length < (tops events).length :=
    Nat.mod_lt _ hpos
  exact ⟨(tops events)[choice % (tops events).length], by
    unfold top
    exact List.getElem?_eq_getElem hlt⟩

/-! ## The loop of `simulate`: termination and invariants -/

theorem body_events_of_arrival (st : SimState) (e : Event) (h : e.serving ≥ 0) :
    (body st e).events
      = st.events.erase e ++ [⟨max e.time st.open_time + e.serving, -1⟩] := by
  simp [body, h, push, pop]

theorem body_events_of_departure (st : SimState) (e : Event) (h : e.serving < 0) :
    (body st e).events = st.events.erase e := by
  have h' : ¬ e.serving ≥ 0 := by omega
  simp [body, h', pop]

theorem body_log_of_arrival (st : SimState) (e : Event) (h : e.serving ≥ 0) :
    (body st e).log
      = st.log ++ [⟨e, some ⟨max e.time st.open_time + e.serving, -1⟩, .arrival e.time⟩] := by
  simp [body, h]

theorem body_log_of_departure (st : SimState) (e : Event) (h : e.serving < 0) :
    (body st e).log = st.log ++ [⟨e, none, .departure e.time⟩] := by
  have h' : ¬ e.serving ≥ 0 := by omega
  simp [body, h']

theorem countP_erase_add (p : Event → Bool) (events : List Event) (e : Event)
    (he : e ∈ events) :
    (events.erase e).countP p + (if p e then 1 else 0) = events.countP p := by
  have hperm := List.perm_cons_erase he
  rw [hperm.countP_eq p, List.countP_cons]

theorem iterations_body (st : SimState) (e : Event) (he : e ∈ st.events) :
    iterations (body st e).events + 1 = iterations st.events := by
  have ha := countP_erase_add (fun e => decide (e.serving ≥ 0)) st.events e he
  have hd := countP_erase_add (fun e => decide (e.serving < 0)) st.events e he
  by_cases h : e.serving ≥ 0
  · have h' : ¬ e.serving < 0 := by omega
    rw [body_events_of_arrival st e h]
    simp [h, h'] at ha hd
    simp [iterations, List.countP_append, List.countP_cons]
    omega
  · have h' : e.serving < 0 := by omega
    rw [body_events_of_departure st e h']
    simp [h, h'] at ha hd
    simp [iterations]
    omega

theorem simLoop_of_empty (fuel : Nat) (tie : Nat → Nat) (st : SimState)
    (h : st.events = []) : simLoop fuel tie st = some st := by
  cases fuel <;> simp [simLoop, h]

theorem simLoop_step (fuel : Nat) (tie : Nat → Nat) (st : SimState) (e : Event)
    (hne : st.events ≠ []) (he : top (tie 0) st.events = some e) :
    simLoop (fuel + 1) tie st = simLoop fuel (fun n => tie (n + 1)) (body st e) := by
  simp [simLoop, hne, he]

/-- With at least `iterations` units of fuel the loop runs to completion, and
it stops on an empty queue. -/
theorem simLoop_terminates :
    ∀ (fuel : Nat) (tie : Nat → Nat) (st : SimState), iterations st.events ≤ fuel →
      ∃ st', simLoop fuel tie st = some st' ∧ st'.events = [] := by
  intro fuel
  induction fuel with
  | zero =>
    intro tie st hfuel
    by_cases hne : st.events = []
    · exact ⟨st, simLoop_of_empty 0 tie st hne, hne⟩
    · obtain ⟨e, he⟩ := top_isSome (tie 0) st.events hne
      have hmem := ((mem_tops_iff _ _).mp (top_mem_tops _ _ _ he)).1
      have := iterations_body st e hmem
      omega
  | succ fuel ih =>
    intro tie st hfuel
    by_cases hne : st.events = []
    · exact ⟨st, simLoop_of_empty _ tie st hne, hne⟩
    · obtain ⟨e, he⟩ := top_isSome (tie 0) st.events hne
      have hmem := ((mem_tops_iff _ _).mp (top_mem_tops _ _ _ he)).1
      have hdec := iterations_body st e hmem
      rw [simLoop_step fuel tie st e hne he]
      exact ih _ _ (by omega)

/-- A property of the loop state that every iteration preserves holds when the
loop is left. -/
theorem simLoop_invariant (P : SimState → Prop)
    (hstep : ∀ st e, P st → e ∈ tops st.events → P (body st e)) :
    ∀ (fuel : Nat) (tie : Nat → Nat) (st st' : SimState),
      P st → simLoop fuel tie st = some st' → P st' := by
  intro fuel
  induction fuel with
  | zero =>
    intro tie st st' hP hrun
    by_cases hne : st.events = []
    · rw [simLoop_of_empty 0 tie st hne] at hrun
      cases hrun
      exact hP
    · simp [simLoop, hne] at hrun
  | succ fuel ih =>
    intro tie st st' hP hrun
    by_cases hne : st.events = []
    · rw [simLoop_of_empty _ tie st hne] at hrun
      cases hrun
      exact hP
    · obtain ⟨e, he⟩ := top_isSome (tie 0) st.events hne
      rw [simLoop_step fuel tie st e hne he] at hrun
      exact ih _ _ _ (hstep st e hP (top_mem_tops _ _ _ he)) hrun

/-- The loop of `simulate` runs to completion within its fuel, so `simulate`
returns. -/
theorem simulate_returns (tie : Nat → Nat) (el : EventList) :
    ∃ st, simLoop (iterations el.events) tie ⟨0, 0, el.events, []⟩ = some st
      ∧ st.events = []
      ∧ simulate tie el = some ⟨st, ⟨el.count, st.total_wait, el.count⟩⟩ := by
  obtain ⟨st, hst, hempty⟩ :=
    simLoop_terminates (iterations el.events) tie ⟨0, 0, el.events, []⟩ (le_refl _)
  exact ⟨st, hst, hempty, by simp [simulate, hst]⟩

/-! ## `fill` -/

theorem fillLoop_cons (arrival time : Int) (rest : Stream) (count : Nat) (evn : Event)
    (events : List Event) :
    fillLoop ((arrival, time) :: rest) count evn events
      = if evn.time > arrival then
          .error ⟨3, count + 1, arrival, evn.time, ⟨count + 1, events⟩⟩
        else fillLoop rest (count + 1) ⟨arrival, time⟩ (push events ⟨arrival, time⟩) :=
  rfl

theorem fillLoop_ok :
    ∀ (is : Stream) (count : Nat) (evn : Event) (events : List Event) (el : EventList),
      fillLoop is count evn events = .ok el →
        el.events = events ++ is.map Event.ofPair ∧ el.count = count + is.length := by
  intro is
  induction is with
  | nil =>
    intro count evn events el h
    simp only [fillLoop, Except.ok.injEq] at h
    subst h
    simp
  | cons p rest ih =>
    intro count evn events el h
    obtain ⟨arrival, time⟩ := p
    simp only [fillLoop] at h
    split at h
    · cases h
    · obtain ⟨h1, h2⟩ := ih _ _ _ _ h
      refine ⟨?_, ?_⟩
      · rw [h1]
        simp [push, Event.ofPair]
      · rw [h2]
        simp
        omega

theorem fillLoop_of_chain :
    ∀ (is : Stream) (count : Nat) (evn : Event) (events : List Event),
      List.Chain (· ≤ ·) evn.time (is.map Prod.fst) →
        ∃ el, fillLoop is count evn events = .ok el := by
  intro is
  induction is with
  | nil =>
    intro count evn events _
    exact ⟨_, rfl⟩
  | cons p rest ih =>
    intro count evn events h
    obtain ⟨arrival, time⟩ := p
    simp only [List.map_cons, List.chain_cons] at h
    have hnot : ¬ evn.time > arrival := by omega
    simp only [fillLoop, hnot, if_false]
    exact ih _ _ _ h.2

theorem fillLoop_error_code :
    ∀ (is : Stream) (count : Nat) (evn : Event) (events : List Event) (t : Thrown),
      fillLoop is count evn events = .error t →
        t.code = 3 ∧ t.list.count = t.customer
          ∧ count < t.customer ∧ t.customer ≤ count + is.length
          ∧ t.list.events
              = events ++ (is.take (t.customer - count - 1)).map Event.ofPair := by
  intro is
  induction is with
  | nil =>
    intro count evn events t h
    simp [fillLoop] at h
  | cons p rest ih =>
    intro count evn events t h
    obtain ⟨arrival, time⟩ := p
    simp only [fillLoop] at h
    split at h
    · simp only [Except.error.injEq] at h
      subst h
      simp
    · obtain ⟨h1, h2, h3, h4, h5⟩ := ih _ _ _ _ h
      refine ⟨h1, h2, by omega, by simp; omega, ?_⟩
      rw [h5]
      have hk : t.customer - count - 1 = (t.customer - (count + 1) - 1) + 1 := by omega
      rw [hk]
      simp [push, Event.ofPair]

theorem fillLoop_error_of_descent (p c : Int × Int) (post : Stream) (hlt : c.1 < p.1) :
    ∀ (pre : Stream) (count : Nat) (evn : Event) (events : List Event),
      ∃ t, fillLoop (pre ++ p :: c :: post) count evn events = .error t := by
  intro pre
  induction pre with
  | nil =>
    intro count evn events
    obtain ⟨pa, pt⟩ := p
    obtain ⟨ca, ct⟩ := c
    have hgt : pa > ca := hlt
    rw [List.nil_append, fillLoop_cons]
    split
    · exact ⟨_, rfl⟩
    · rw [fillLoop_cons, if_pos hgt]
      exact ⟨_, rfl⟩
  | cons a rest ih =>
    intro count evn events
    obtain ⟨aa, at_⟩ := a
    rw [List.cons_append, fillLoop_cons]
    split
    · exact ⟨_, rfl⟩
    · exact ih _ _ _

theorem fillLoop_throw_first (p c : Int × Int) (post : Stream) (hlt : c.1 < p.1) :
    ∀ (pre : Stream) (count : Nat) (evn : Event) (events : List Event),
      List.Chain (· ≤ ·) evn.time ((pre ++ [p]).map Prod.fst) →
        fillLoop (pre ++ p :: c :: post) count evn events
          = .error ⟨3, count + pre.length + 2, c.1, p.1,
              ⟨count + pre.length + 2, events ++ (pre ++ [p]).map Event.ofPair⟩⟩ := by
  intro pre
  induction pre with
  | nil =>
    intro count evn events h
    obtain ⟨pa, pt⟩ := p
    obtain ⟨ca, ct⟩ := c
    simp only [List.nil_append, List.map_cons, List.map_nil, List.chain_cons] at h
    have h1 : ¬ evn.time > pa := by omega
    have h2 : pa > ca := hlt
    rw [List.nil_append, fillLoop_cons, if_neg h1, fillLoop_cons, if_pos h2]
    simp [push, Event.ofPair]
  | cons a rest ih =>
    intro count evn events h
    obtain ⟨aa, at_⟩ := a
    simp only [List.cons_append, List.map_cons, List.chain_cons] at h
    have h1 : ¬ evn.time > aa := by omega
    rw [List.cons_append, fillLoop_cons, if_neg h1, ih _ _ _ h.2]
    simp [push, Event.ofPair]
    omega

theorem chain_zero_of_nonneg (times : List Int) (hsorted : List.Chain' (· ≤ ·) times)
    (hfirst : ∀ t ∈ times.head?, (0 : Int) ≤ t) : List.Chain (· ≤ ·) (0 : Int) times := by
  cases times with
  | nil => exact List.Chain.nil
  | cons a rest =>
    exact List.Chain.cons (hfirst a (by simp)) hsorted

/-! ## Facts about one iteration -/

theorem simLoop_mono :
    ∀ (fuel : Nat) (tie : Nat → Nat) (st st' : SimState),
      simLoop fuel tie st = some st' →
        ∀ fuel', fuel ≤ fuel' → simLoop fuel' tie st = some st' := by
  intro fuel
  induction fuel with
  | zero =>
    intro tie st st' hrun fuel' _
    by_cases hne : st.events = []
    · rw [simLoop_of_empty 0 tie st hne] at hrun
      rw [simLoop_of_empty fuel' tie st hne]
      exact hrun
    · simp [simLoop, hne] at hrun
  | succ fuel ih =>
    intro tie st st' hrun fuel' hle
    by_cases hne : st.events = []
    · rw [simLoop_of_empty _ tie st hne] at hrun
      rw [simLoop_of_empty fuel' tie st hne]
      exact hrun
    · obtain ⟨e, he⟩ := top_isSome (tie 0) st.events hne
      obtain ⟨k, rfl⟩ : ∃ k, fuel' = k + 1 := ⟨fuel' - 1, by omega⟩
      rw [simLoop_step fuel tie st e hne he] at hrun
      rw [simLoop_step k tie st e hne he]
      exact ih _ _ _ hrun k (by omega)

theorem body_log (st : SimState) (e : Event) :
    ∃ it, (body st e).log = st.log ++ [it] ∧ it.popped = e ∧ it.line.time = e.time
      ∧ it.line.isArrival = decide (e.serving ≥ 0)
      ∧ it.line.isDeparture = decide (e.serving < 0) := by
  by_cases h : e.serving ≥ 0
  · have h' : ¬ e.serving < 0 := by omega
    exact ⟨_, body_log_of_arrival st e h, rfl, rfl, by simp [Line.isArrival, h],
      by simp [Line.isDeparture, h']⟩
  · have h' : e.serving < 0 := by omega
    exact ⟨_, body_log_of_departure st e h', rfl, rfl, by simp [Line.isArrival, h],
      by simp [Line.isDeparture, h']⟩

theorem body_counts_of_arrival (st : SimState) (e : Event) (he : e ∈ st.events)
    (h : e.serving ≥ 0) :
    (body st e).events.countP (fun e => decide (e.serving ≥ 0)) + 1
        = st.events.countP (fun e => decide (e.serving ≥ 0))
      ∧ (body st e).events.countP (fun e => decide (e.serving < 0))
        = st.events.countP (fun e => decide (e.serving < 0)) + 1 := by
  have ha := countP_erase_add (fun e => decide (e.serving ≥ 0)) st.events e he
  have hd := countP_erase_add (fun e => decide (e.serving < 0)) st.events e he
  have h' : ¬ e.serving < 0 := by omega
  rw [body_events_of_arrival st e h]
  simp [h, h'] at ha hd
  simp [List.countP_append, List.countP_cons]
  omega

theorem body_counts_of_departure (st : SimState) (e : Event) (he : e ∈ st.events)
    (h : e.serving < 0) :
    (body st e).events.countP (fun e => decide (e.serving ≥ 0))
        = st.events.countP (fun e => decide (e.serving ≥ 0))
      ∧ (body st e).events.countP (fun e => decide (e.serving < 0)) + 1
        = st.events.countP (fun e => decide (e.serving < 0)) := by
  have ha := countP_erase_add (fun e => decide (e.serving ≥ 0)) st.events e he
  have hd := countP_erase_add (fun e => decide (e.serving < 0)) st.events e he
  have h' : ¬ e.serving ≥ 0 := by omega
  rw [body_events_of_departure st e h]
  simp [h, h'] at ha hd
  simp
  omega

theorem body_events_time (st : SimState) (e : Event) (x : Event)
    (hx : x ∈ (body st e).events) : x ∈ st.events ∨ e.time ≤ x.time := by
  by_cases h : e.serving ≥ 0
  · rw [body_events_of_arrival st e h] at hx
    rcases List.mem_append.mp hx with hx | hx
    · exact Or.inl (List.mem_of_mem_erase hx)
    · right
      simp only [List.mem_singleton] at hx
      subst hx
      have := le_max_left e.time st.open_time
      show e.time ≤ max e.time st.open_time + e.serving
      omega
  · have h' : e.serving < 0 := by omega
    rw [body_events_of_departure st e h'] at hx
    exact Or.inl (List.mem_of_mem_erase hx)

theorem filter_erase_of_neg (p : Event → Bool) (e : Event) (hp : p e = false) :
    ∀ events : List Event, (events.erase e).filter p = events.filter p := by
  intro events
  induction events with
  | nil => rfl
  | cons a rest ih =>
    by_cases hae : a = e
    · subst hae
      simp [hp]
    · rw [List.erase_cons_tail (by simpa using hae)]
      simp [List.filter_cons, ih]

theorem filter_erase_of_pos (p : Event → Bool) (e : Event) (hp : p e = true) :
    ∀ events : List Event, (events.erase e).filter p = (events.filter p).erase e := by
  intro events
  induction events with
  | nil => rfl
  | cons a rest ih =>
    by_cases hae : a = e
    · subst hae
      simp [hp]
    · rw [List.erase_cons_tail (by simpa using hae)]
      by_cases hpa : p a = true
      · rw [List.filter_cons_of_pos hpa, List.filter_cons_of_pos hpa,
          List.erase_cons_tail (by simpa using hae), ih]
      · rw [List.filter_cons_of_neg hpa, List.filter_cons_of_neg hpa, ih]

theorem replay_append (log : List Iter) (it : Iter) :
    replay (log ++ [it]) = settle (replay log) it := by
  simp [replay, List.foldl_append]

/-! ## Invariants of the loop -/

/-- Lines written plus iterations still to run is constant. -/
theorem length_invariant (n : Nat) (st : SimState) (e : Event)
    (hP : st.log.length + iterations st.events = n) (he : e ∈ tops st.events) :
    (body st e).log.length + iterations (body st e).events = n := by
  have hmem := ((mem_tops_iff _ _).mp he).1
  have hdec := iterations_body st e hmem
  obtain ⟨it, hlog, -⟩ := body_log st e
  rw [hlog, List.length_append, List.length_singleton]
  omega

/-- Arrival lines written plus arrivals queued is constant, and so is the number
of departure lines written plus all queued events plus arrivals queued. -/
theorem count_invariant (a d : Nat) (st : SimState) (e : Event)
    (hP : st.lines.countP Line.isArrival
            + st.events.countP (fun e => decide (e.serving ≥ 0)) = a
          ∧ st.lines.countP Line.isDeparture
            + st.events.countP (fun e => decide (e.serving ≥ 0))
            + st.events.countP (fun e => decide (e.serving < 0)) = d)
    (he : e ∈ tops st.events) :
    (body st e).lines.countP Line.isArrival
        + (body st e).events.countP (fun e => decide (e.serving ≥ 0)) = a
      ∧ (body st e).lines.countP Line.isDeparture
        + (body st e).events.countP (fun e => decide (e.serving ≥ 0))
        + (body st e).events.countP (fun e => decide (e.serving < 0)) = d := by
  have hmem := ((mem_tops_iff _ _).mp he).1
  obtain ⟨it, hlog, -, -, harr, hdep⟩ := body_log st e
  obtain ⟨h1, h2⟩ := hP
  simp only [SimState.lines] at h1 h2 ⊢
  rw [hlog, List.map_append, List.map_singleton, List.countP_append, List.countP_append,
    List.countP_singleton, List.countP_singleton, harr, hdep]
  by_cases h : e.serving ≥ 0
  · have h' : ¬ e.serving < 0 := by omega
    obtain ⟨c1, c2⟩ := body_counts_of_arrival st e hmem h
    simp only [h, h', decide_True, decide_False, if_true, Bool.false_eq_true, if_false]
    omega
  · have h' : e.serving < 0 := by omega
    obtain ⟨c1, c2⟩ := body_counts_of_departure st e hmem h'
    simp only [h, h', decide_True, decide_False, if_true, Bool.false_eq_true, if_false]
    omega

/-- The times of the lines written are non-decreasing and none exceeds the time
of a queued event. -/
theorem order_invariant (st : SimState) (e : Event)
    (hP : List.Sorted (· ≤ ·) (st.lines.map Line.time)
          ∧ ∀ t ∈ st.lines.map Line.time, ∀ x ∈ st.events, t ≤ x.time)
    (he : e ∈ tops st.events) :
    List.Sorted (· ≤ ·) ((body st e).lines.map Line.time)
      ∧ ∀ t ∈ (body st e).lines.map Line.time, ∀ x ∈ (body st e).events, t ≤ x.time := by
  obtain ⟨hmem, hmin⟩ := (mem_tops_iff _ _).mp he
  obtain ⟨it, hlog, -, htime, -⟩ := body_log st e
  obtain ⟨hsorted, hbound⟩ := hP
  simp only [SimState.lines] at hsorted hbound ⊢
  rw [hlog, List.map_append, List.map_append, List.map_singleton, List.map_singleton, htime]
  refine ⟨?_, ?_⟩
  · refine List.pairwise_append.mpr ⟨hsorted, List.pairwise_singleton _ _, ?_⟩
    intro t ht b hb
    rw [List.mem_singleton.mp hb]
    exact hbound t ht e hmem
  · intro t ht x hx
    have hex : e.time ≤ x.time := by
      rcases body_events_time st e x hx with hx | hx
      · exact hmin x hx
      · exact hx
    rcases List.mem_append.mp ht with ht | ht
    · exact le_trans (hbound t ht e hmem) hex
    · rw [List.mem_singleton.mp ht]
      exact hex

/-- The departures pushed by `simulate` and not yet processed are the
departures in the queue. -/
theorem replay_invariant (st : SimState) (e : Event)
    (hP : replay st.log = some (st.events.filter Event.isDeparture))
    (he : e ∈ tops st.events) :
    replay (body st e).log = some ((body st e).events.filter Event.isDeparture) := by
  have hmem := ((mem_tops_iff _ _).mp he).1
  by_cases h : e.serving ≥ 0
  · have hdep : Event.isDeparture e = false := by
      simp only [Event.isDeparture, decide_eq_false_iff_not]
      omega
    rw [body_log_of_arrival st e h, body_events_of_arrival st e h, replay_append, hP,
      List.filter_append, filter_erase_of_neg _ e hdep]
    have hd : Event.isDeparture ⟨max e.time st.open_time + e.serving, -1⟩ = true := by
      simp [Event.isDeparture]
    simp [settle, hdep, hd]
  · have h' : e.serving < 0 := by omega
    have hdep : Event.isDeparture e = true := by
      simp only [Event.isDeparture, decide_eq_true_eq]
      exact h'
    have hin : e ∈ st.events.filter Event.isDeparture :=
      List.mem_filter.mpr ⟨hmem, hdep⟩
    rw [body_log_of_departure st e h', body_events_of_departure st e h', replay_append, hP,
      filter_erase_of_pos _ e hdep]
    simp [settle, hdep, hin]

theorem countP_ofPair_of_nonneg (is : Stream) (h : ∀ p ∈ is, 0 ≤ p.2) :
    (is.map Event.ofPair).countP (fun e => decide (e.serving ≥ 0)) = is.length
      ∧ (is.map Event.ofPair).countP (fun e => decide (e.serving < 0)) = 0
      ∧ (is.map Event.ofPair).filter Event.isDeparture = [] := by
  refine ⟨?_, ?_, ?_⟩
  · rw [List.countP_eq_length.mpr, List.length_map]
    intro e he
    obtain ⟨p, hp, rfl⟩ := List.mem_map.mp he
    simpa [Event.ofPair] using h p hp
  · rw [List.countP_eq_zero]
    intro e he
    obtain ⟨p, hp, rfl⟩ := List.mem_map.mp he
    simpa [Event.ofPair] using h p hp
  · rw [List.filter_eq_nil_iff]
    intro e he
    obtain ⟨p, hp, rfl⟩ := List.mem_map.mp he
    simpa [Event.ofPair, Event.isDeparture] using h p hp

/-! ## The arrival step -/

/-- C1: an iteration of the loop of `simulate` that popped an event `e` with
`e.serving ≥ 0` sets `open_time` to `max e.time open_time + e.serving`, adds
`max e.time open_time - e.time` to `total_wait`, pushes exactly one event, with
`time` the new `open_time` and `serving = -1`, onto the queue from which `e` was
popped, and writes exactly one line, an arrival line carrying `e.time`. -/
theorem arrival_step (st : SimState) (e : Event) (h : e.serving ≥ 0) :
    (body st e).open_time = max e.time st.open_time + e.serving
      ∧ (body st e).total_wait = st.total_wait + (max e.time st.open_time - e.time)
      ∧ (body st e).events
          = push (pop st.events e) ⟨max e.time st.open_time + e.serving, -1⟩
      ∧ (body st e).log
          = st.log ++ [⟨e, some ⟨max e.time st.open_time + e.serving, -1⟩, .arrival e.time⟩]
      ∧ (body st e).lines = st.lines ++ [.arrival e.time] := by
  simp [body, h, SimState.lines]

/-- C1, at a concrete state: the teller is busy until 5, a customer who arrived
at 2 and needs 3 waits 3 and leaves at 8. -/
theorem arrival_step_witness :
    (3 : Int) ≥ 0
      ∧ (body ⟨5, 10, [⟨2, 3⟩, ⟨4, 1⟩], []⟩ ⟨2, 3⟩).open_time = 8
      ∧ (body ⟨5, 10, [⟨2, 3⟩, ⟨4, 1⟩], []⟩ ⟨2, 3⟩).total_wait = 13
      ∧ (body ⟨5, 10, [⟨2, 3⟩, ⟨4, 1⟩], []⟩ ⟨2, 3⟩).events = [⟨4, 1⟩, ⟨8, -1⟩]
      ∧ (body ⟨5, 10, [⟨2, 3⟩, ⟨4, 1⟩], []⟩ ⟨2, 3⟩).log
          = [⟨⟨2, 3⟩, some ⟨8, -1⟩, .arrival 2⟩]
      ∧ (body ⟨5, 10, [⟨2, 3⟩, ⟨4, 1⟩], []⟩ ⟨2, 3⟩).lines = [.arrival 2] :=
  ⟨by decide, arrival_step ⟨5, 10, [⟨2, 3⟩, ⟨4, 1⟩], []⟩ ⟨2, 3⟩ (by decide)⟩

/-! ## What `fill` accepts, rejects and builds -/

/-- C4: when some pair `c` of the stream comes right after a pair `p` with
`c.1 < p.1`, `fill` throws, and the value thrown is 3. When moreover all
arrival times are non-negative and `c` is the first such pair (the arrival
times up to `p` are non-decreasing), the diagnostic carries the 1-based index
of `c`, the arrival time of `c`, and the arrival time of `p`, the queue holding
the events of the pairs before `c`. -/
theorem fill_order_violation (pre post : Stream) (p c : Int × Int) (events : List Event)
    (hlt : c.1 < p.1) :
    (∃ t, fill (pre ++ p :: c :: post) events = .error t ∧ t.code = 3)
      ∧ ((∀ x ∈ pre ++ p :: c :: post, 0 ≤ x.1) →
          List.Chain' (· ≤ ·) ((pre ++ [p]).map Prod.fst) →
            fill (pre ++ p :: c :: post) events
              = .error ⟨3, pre.length + 2, c.1, p.1,
                  ⟨pre.length + 2, events ++ (pre ++ [p]).map Event.ofPair⟩⟩) := by
  refine ⟨?_, ?_⟩
  · obtain ⟨t, ht⟩ := fillLoop_error_of_descent p c post hlt pre 0 ⟨0, 0⟩ events
    exact ⟨t, ht, (fillLoop_error_code _ _ _ _ _ ht).1⟩
  · intro hnonneg hsorted
    have hchain : List.Chain (· ≤ ·) (0 : Int) ((pre ++ [p]).map Prod.fst) := by
      apply chain_zero_of_nonneg _ hsorted
      intro a ha
      have hmem : a ∈ (pre ++ [p]).map Prod.fst := List.mem_of_mem_head? ha
      obtain ⟨x, hx, rfl⟩ := List.mem_map.mp hmem
      apply hnonneg x
      simp only [List.mem_append, List.mem_cons, List.mem_singleton, List.not_mem_nil,
        or_false] at hx ⊢
      tauto
    have hthrow := fillLoop_throw_first p c post hlt pre 0 ⟨0, 0⟩ events hchain
    simpa [fill] using hthrow

/-- C4, at the stream `5 1`, `3 1`: record #2 is reported, with time 3 and
previous time 5. -/
theorem fill_order_violation_witness :
    (3 : Int) < 5
      ∧ fill [(5, 1), (3, 1)] [] = .error ⟨3, 2, 3, 5, ⟨2, [⟨5, 1⟩]⟩⟩ :=
  ⟨by decide,
    (fill_order_violation [] [] (5, 1) (3, 1) [] (by decide)).2 (by simp) (by simp)⟩

/-- C5 as stated fails: the one-pair stream `-1 0` is non-decreasing, and `fill`
throws on it, reporting customer #1 with previous time 0. -/
theorem fill_throws_on_negative_first :
    List.Chain' (· ≤ ·) ([((-1 : Int), (0 : Int))].map Prod.fst)
      ∧ fill [(-1, 0)] [] = .error ⟨3, 1, -1, 0, ⟨1, []⟩⟩ :=
  ⟨by simp, rfl⟩

/-- C5, amended: on a stream whose arrival times are non-decreasing across
successive pairs and whose first arrival time is not negative, `fill` returns
normally. -/
theorem fill_returns_of_sorted (is : Stream) (events : List Event)
    (hsorted : List.Chain' (· ≤ ·) (is.map Prod.fst))
    (hfirst : ∀ p ∈ is.head?, 0 ≤ p.1) :
    ∃ el, fill is events = .ok el := by
  apply fillLoop_of_chain
  apply chain_zero_of_nonneg _ hsorted
  intro t ht
  cases is with
  | nil => simp at ht
  | cons p rest =>
    simp only [List.map_cons, List.head?_cons, Option.mem_def, Option.some.injEq] at ht
    subst ht
    exact hfirst p (by simp)

/-- C5, amended, at the stream `0 5`, `2 3`. -/
theorem fill_returns_of_sorted_witness :
    (List.Chain' (· ≤ ·) ([((0 : Int), (5 : Int)), (2, 3)].map Prod.fst)
        ∧ (∀ p ∈ [((0 : Int), (5 : Int)), (2, 3)].head?, 0 ≤ p.1))
      ∧ ∃ el, fill [(0, 5), (2, 3)] [] = .ok el :=
  ⟨by simp, fill_returns_of_sorted [(0, 5), (2, 3)] [] (by simp) (by simp)⟩

/-- C7: when `fill` succeeds on a stream of `n` pairs, starting from an empty
queue, the queue holds one event per pair, with `time` the arrival time and
`serving` the service duration, nothing else, and `count = n`. -/
theorem fill_builds_queue (is : Stream) (el : EventList) (h : fill is [] = .ok el) :
    el.events = is.map Event.ofPair
      ∧ (el.events : Multiset Event) = (is.map Event.ofPair : List Event)
      ∧ el.events.length = is.length
      ∧ el.count = is.length := by
  obtain ⟨h1, h2⟩ := fillLoop_ok is 0 ⟨0, 0⟩ [] el h
  simp only [List.nil_append] at h1
  simp [h1, h2]

/-- C7, at the stream `0 5`, `2 3`. -/
theorem fill_builds_queue_witness :
    fill [(0, 5), (2, 3)] [] = .ok ⟨2, [⟨0, 5⟩, ⟨2, 3⟩]⟩
      ∧ ([⟨0, 5⟩, ⟨2, 3⟩] : List Event) = [((0 : Int), (5 : Int)), (2, 3)].map Event.ofPair
      ∧ (([⟨0, 5⟩, ⟨2, 3⟩] : List Event) : Multiset Event)
          = ([((0 : Int), (5 : Int)), (2, 3)].map Event.ofPair : List Event)
      ∧ ([⟨0, 5⟩, ⟨2, 3⟩] : List Event).length = [((0 : Int), (5 : Int)), (2, 3)].length
      ∧ (2 : Nat) = [((0 : Int), (5 : Int)), (2, 3)].length :=
  ⟨rfl, fill_builds_queue [(0, 5), (2, 3)] ⟨2, [⟨0, 5⟩, ⟨2, 3⟩]⟩ rfl⟩

/-! ## Running `simulate` -/

/-- C2: on the queue that `fill` builds from a stream whose service durations
are all non-negative, `simulate` returns, and it writes as many departure lines
as arrival lines, both numbers being the customer count it reports, which is
the number of input pairs. -/
theorem departures_match_arrivals (tie : Nat → Nat) (is : Stream) (el : EventList)
    (hfill : fill is [] = .ok el) (hserving : ∀ p ∈ is, 0 ≤ p.2) :
    ∃ r, simulate tie el = some r
      ∧ r.lines.countP Line.isArrival = r.report.count
      ∧ r.lines.countP Line.isDeparture = r.report.count
      ∧ r.report.count = is.length
      ∧ r.final.events = [] := by
  obtain ⟨hev, hcount⟩ := fillLoop_ok is 0 ⟨0, 0⟩ [] el hfill
  simp only [List.nil_append, Nat.zero_add] at hev hcount
  obtain ⟨ca, cd, -⟩ := countP_ofPair_of_nonneg is hserving
  obtain ⟨st, hloop, hempty, hsim⟩ := simulate_returns tie el
  have hinv := simLoop_invariant _ (count_invariant is.length is.length) _ tie
    ⟨0, 0, el.events, []⟩ st (by simp [SimState.lines, hev, ca, cd]) hloop
  rw [hempty] at hinv
  simp only [List.countP_nil, Nat.add_zero] at hinv
  exact ⟨_, hsim, by simp [SimResult.lines, hinv.1, hcount],
    by simp [SimResult.lines, hinv.2, hcount], hcount, hempty⟩

/-- C2, at the stream `0 5`, `2 3`: two arrival lines, two departure lines,
count 2. -/
theorem departures_match_arrivals_witness :
    (fill [(0, 5), (2, 3)] [] = .ok ⟨2, [⟨0, 5⟩, ⟨2, 3⟩]⟩
        ∧ ∀ p ∈ [((0 : Int), (5 : Int)), (2, 3)], 0 ≤ p.2)
      ∧ ∃ r, simulate (fun _ => 0) ⟨2, [⟨0, 5⟩, ⟨2, 3⟩]⟩ = some r
        ∧ r.lines.countP Line.isArrival = r.report.count
        ∧ r.lines.countP Line.isDeparture = r.report.count
        ∧ r.report.count = [((0 : Int), (5 : Int)), (2, 3)].length
        ∧ r.final.events = [] :=
  ⟨⟨rfl, by decide⟩,
    departures_match_arrivals (fun _ => 0) [(0, 5), (2, 3)] ⟨2, [⟨0, 5⟩, ⟨2, 3⟩]⟩ rfl
      (by decide)⟩

/-- C3: when `fill` accepts a stream, the queue it builds holds the events of
the stream, `simulate` returns on it, and the times reported by the lines it
wrote, arrivals and departures together, are non-decreasing, whichever
candidate `top` returns in each iteration. -/
theorem lines_nondecreasing (tie : Nat → Nat) (is : Stream) (el : EventList)
    (hfill : fill is [] = .ok el) :
    el.events = is.map Event.ofPair
      ∧ ∃ r, simulate tie el = some r ∧ List.Sorted (· ≤ ·) (r.lines.map Line.time) := by
  obtain ⟨hev, -⟩ := fillLoop_ok is 0 ⟨0, 0⟩ [] el hfill
  simp only [List.nil_append] at hev
  obtain ⟨st, hloop, -, hsim⟩ := simulate_returns tie el
  have hinv := simLoop_invariant _ order_invariant _ tie ⟨0, 0, el.events, []⟩ st
    (by simp [SimState.lines]) hloop
  exact ⟨hev, _, hsim, hinv.1⟩

/-- C3, at the stream `0 5`, `2 3`. -/
theorem lines_nondecreasing_witness :
    fill [(0, 5), (2, 3)] [] = .ok ⟨2, [⟨0, 5⟩, ⟨2, 3⟩]⟩
      ∧ ([⟨0, 5⟩, ⟨2, 3⟩] : List Event) = [((0 : Int), (5 : Int)), (2, 3)].map Event.ofPair
      ∧ ∃ r, simulate (fun _ => 0) ⟨2, [⟨0, 5⟩, ⟨2, 3⟩]⟩ = some r
        ∧ List.Sorted (· ≤ ·) (r.lines.map Line.time) :=
  ⟨rfl, lines_nondecreasing (fun _ => 0) [(0, 5), (2, 3)] ⟨2, [⟨0, 5⟩, ⟨2, 3⟩]⟩ rfl⟩

/-- C6 as stated fails: `fill` accepts the stream `0 -5`, `simulate` processes
the event read from it as a departure, writing a departure line and no arrival
line, and no push by `simulate` accounts for that departure. -/
theorem departure_from_input :
    fill [(0, -5)] [] = .ok ⟨1, [⟨0, -5⟩]⟩
      ∧ simulate (fun _ => 0) ⟨1, [⟨0, -5⟩]⟩
          = some ⟨⟨0, 0, [], [⟨⟨0, -5⟩, none, .departure 0⟩]⟩, ⟨1, 0, 1⟩⟩
      ∧ replay [⟨⟨0, -5⟩, none, .departure 0⟩] = none :=
  ⟨rfl, rfl, rfl⟩

/-- C6, amended: on the queue that `fill` builds from a stream whose service
durations are all non-negative, no queued event is a departure, `simulate`
returns, and every event it processed as a departure is matched with a push of
that event made by `simulate` in an earlier iteration that processed an
arrival, each push serving for one departure only. -/
theorem departures_are_spawned (tie : Nat → Nat) (is : Stream) (el : EventList)
    (hfill : fill is [] = .ok el) (hserving : ∀ p ∈ is, 0 ≤ p.2) :
    (∀ e ∈ el.events, e.isDeparture = false)
      ∧ ∃ r, simulate tie el = some r ∧ replay r.final.log = some [] := by
  obtain ⟨hev, -⟩ := fillLoop_ok is 0 ⟨0, 0⟩ [] el hfill
  simp only [List.nil_append] at hev
  obtain ⟨-, -, hnone⟩ := countP_ofPair_of_nonneg is hserving
  obtain ⟨st, hloop, hempty, hsim⟩ := simulate_returns tie el
  have hinv := simLoop_invariant _ replay_invariant _ tie ⟨0, 0, el.events, []⟩ st
    (by simp [replay, hev, hnone]) hloop
  rw [hempty] at hinv
  refine ⟨?_, _, hsim, hinv⟩
  intro e he
  rw [hev] at he
  have := List.filter_eq_nil_iff.mp hnone e he
  simpa using this

/-- C6, amended, at the stream `0 5`, `2 3`. -/
theorem departures_are_spawned_witness :
    (fill [(0, 5), (2, 3)] [] = .ok ⟨2, [⟨0, 5⟩, ⟨2, 3⟩]⟩
        ∧ ∀ p ∈ [((0 : Int), (5 : Int)), (2, 3)], 0 ≤ p.2)
      ∧ (∀ e ∈ ([⟨0, 5⟩, ⟨2, 3⟩] : List Event), e.isDeparture = false)
      ∧ ∃ r, simulate (fun _ => 0) ⟨2, [⟨0, 5⟩, ⟨2, 3⟩]⟩ = some r
        ∧ replay r.final.log = some [] :=
  ⟨⟨rfl, by decide⟩,
    departures_are_spawned (fun _ => 0) [(0, 5), (2, 3)] ⟨2, [⟨0, 5⟩, ⟨2, 3⟩]⟩ rfl
      (by decide)⟩

/-- C8 fails on the code: on the empty stream `fill` leaves `count = 0`, and
the final statistics of `simulate` divide `total_wait = 0` by `count = 0`;
the program still exits with status 0. -/
theorem empty_input_divides_by_zero (tie : Nat → Nat) :
    fill [] [] = .ok ⟨0, []⟩
      ∧ simulate tie ⟨0, []⟩ = some ⟨⟨0, 0, [], []⟩, ⟨0, 0, 0⟩⟩
      ∧ main tie (.stdin []) = some ⟨0, [], some ⟨0, 0, 0⟩⟩ :=
  ⟨rfl, rfl, rfl⟩

/-- C9: when `fill` throws on the stream, the value thrown is 3, `main` exits
with status 3 having written no arrival line, no departure line and no
statistics block, whether the stream is standard input or a file; the queue
nevertheless holds the pairs that precede the offending one. -/
theorem order_violation_stops_program (tie : Nat → Nat) (is : Stream) (t : Thrown)
    (hfill : fill is [] = .error t) :
    t.code = 3
      ∧ main tie (.stdin is) = some ⟨3, [], none⟩
      ∧ main tie (.file (some is)) = some ⟨3, [], none⟩
      ∧ 1 ≤ t.customer ∧ t.customer ≤ is.length
      ∧ t.list.events = (is.take (t.customer - 1)).map Event.ofPair := by
  obtain ⟨h1, -, h3, h4, h5⟩ := fillLoop_error_code is 0 ⟨0, 0⟩ [] t hfill
  simp only [List.nil_append, Nat.zero_add, Nat.sub_zero] at h4 h5
  refine ⟨h1, ?_, ?_, h3, h4, h5⟩
  · simp [main, run, hfill, h1]
  · simp [main, run, hfill, h1]

/-- C9, at the stream `5 1`, `3 1`: exit status 3, nothing on standard output,
the event of the first pair left in the queue. -/
theorem order_violation_stops_program_witness :
    fill [(5, 1), (3, 1)] [] = .error ⟨3, 2, 3, 5, ⟨2, [⟨5, 1⟩]⟩⟩
      ∧ (3 : Int) = 3
      ∧ main (fun _ => 0) (.stdin [(5, 1), (3, 1)]) = some ⟨3, [], none⟩
      ∧ main (fun _ => 0) (.file (some [(5, 1), (3, 1)])) = some ⟨3, [], none⟩
      ∧ 1 ≤ 2 ∧ 2 ≤ [((5 : Int), (1 : Int)), (3, 1)].length
      ∧ ([⟨5, 1⟩] : List Event)
          = ([((5 : Int), (1 : Int)), (3, 1)].take (2 - 1)).map Event.ofPair :=
  ⟨rfl, order_violation_stops_program (fun _ => 0) [(5, 1), (3, 1)]
    ⟨3, 2, 3, 5, ⟨2, [⟨5, 1⟩]⟩⟩ rfl⟩

/-- C10: for every initial queue, `simulate` returns with the queue empty,
having written exactly `iterations` lines, the result being the same for any
larger bound on the number of iterations; every iteration strictly decreases
`iterations` of the queue, and leaves the queue either with the popped event
removed or with the popped event removed and one event with `serving = -1`
added. -/
theorem simulate_terminates (tie : Nat → Nat) (el : EventList) :
    (∃ r, simulate tie el = some r ∧ r.final.events = []
        ∧ r.lines.length = iterations el.events
        ∧ ∀ fuel, iterations el.events ≤ fuel →
            simLoop fuel tie ⟨0, 0, el.events, []⟩ = some r.final)
      ∧ (∀ (st : SimState) (e : Event), e ∈ tops st.events →
          iterations (body st e).events < iterations st.events)
      ∧ (∀ (st : SimState) (e : Event),
          (body st e).events = pop st.events e
            ∨ ∃ time, (body st e).events = push (pop st.events e) ⟨time, -1⟩) := by
  refine ⟨?_, ?_, ?_⟩
  · obtain ⟨st, hloop, hempty, hsim⟩ := simulate_returns tie el
    have hinv := simLoop_invariant _ (length_invariant (iterations el.events)) _ tie
      ⟨0, 0, el.events, []⟩ st (by simp) hloop
    rw [hempty] at hinv
    refine ⟨_, hsim, hempty, ?_, ?_⟩
    · simpa [SimResult.lines, SimState.lines, iterations] using hinv
    · intro fuel hfuel
      exact simLoop_mono _ tie _ st hloop fuel hfuel
  · intro st e he
    have := iterations_body st e ((mem_tops_iff _ _).mp he).1
    omega
  · intro st e
    by_cases h : e.serving ≥ 0
    · exact Or.inr ⟨_, by rw [body_events_of_arrival st e h]; rfl⟩
    · exact Or.inl (by rw [body_events_of_departure st e (by omega)]; rfl)

/-! ## Monotonicity and the departure step -/

theorem simLoop_reachable (events : List Event) :
    ∀ (fuel : Nat) (tie : Nat → Nat) (st st' : SimState),
      Reachable events st → simLoop fuel tie st = some st' → Reachable events st' :=
  simLoop_invariant (Reachable events) (fun st e h he => Reachable.iteration st e h he)

theorem reachable_nonneg (events : List Event) (st : SimState) (h : Reachable events st) :
    0 ≤ st.open_time ∧ 0 ≤ st.total_wait := by
  induction h with
  | entry => exact ⟨le_refl _, le_refl _⟩
  | iteration st e _ _ ih =>
    by_cases hs : e.serving ≥ 0
    · have h1 := le_max_left e.time st.open_time
      have h2 := le_max_right e.time st.open_time
      simp only [body, hs, if_true]
      constructor <;> omega
    · simp only [body, hs, if_false]
      exact ih

/-- C11: in every state the loop of `simulate` can be in, whatever the initial
queue, `open_time` and `total_wait` are both at least 0, and one more iteration,
whichever event it pops, lowers neither of them; when the popped event has
`serving ≥ 0`, the wait `max e.time open_time - e.time` that the iteration adds
to `total_wait` is at least 0. -/
theorem open_time_total_wait_monotone (events : List Event) (st : SimState)
    (h : Reachable events st) :
    0 ≤ st.open_time ∧ 0 ≤ st.total_wait
      ∧ ∀ e : Event,
          st.open_time ≤ (body st e).open_time
            ∧ st.total_wait ≤ (body st e).total_wait
            ∧ 0 ≤ (body st e).open_time ∧ 0 ≤ (body st e).total_wait
            ∧ (e.serving ≥ 0 →
                0 ≤ max e.time st.open_time - e.time
                  ∧ (body st e).total_wait
                      = st.total_wait + (max e.time st.open_time - e.time)) := by
  obtain ⟨ho, hw⟩ := reachable_nonneg events st h
  refine ⟨ho, hw, ?_⟩
  intro e
  have h1 := le_max_left e.time st.open_time
  have h2 := le_max_right e.time st.open_time
  by_cases hs : e.serving ≥ 0
  · have e1 : (body st e).open_time = max e.time st.open_time + e.serving := by
      simp [body, hs]
    have e2 : (body st e).total_wait
        = st.total_wait + (max e.time st.open_time - e.time) := by
      simp [body, hs]
    rw [e1, e2]
    refine ⟨by omega, by omega, by omega, by omega, ?_⟩
    intro _
    exact ⟨by omega, rfl⟩
  · have e1 : (body st e).open_time = st.open_time := by simp [body, hs]
    have e2 : (body st e).total_wait = st.total_wait := by simp [body, hs]
    rw [e1, e2]
    exact ⟨le_refl _, le_refl _, ho, hw, fun hc => absurd hc hs⟩

/-- C11, at the state reached from the queue `0 5`, `2 3` by one iteration. -/
theorem open_time_total_wait_monotone_witness :
    Reachable [⟨0, 5⟩, ⟨2, 3⟩] (body ⟨0, 0, [⟨0, 5⟩, ⟨2, 3⟩], []⟩ ⟨0, 5⟩)
      ∧ 0 ≤ (body ⟨0, 0, [⟨0, 5⟩, ⟨2, 3⟩], []⟩ ⟨0, 5⟩).open_time
      ∧ 0 ≤ (body ⟨0, 0, [⟨0, 5⟩, ⟨2, 3⟩], []⟩ ⟨0, 5⟩).total_wait
      ∧ ∀ e : Event,
          (body ⟨0, 0, [⟨0, 5⟩, ⟨2, 3⟩], []⟩ ⟨0, 5⟩).open_time
              ≤ (body (body ⟨0, 0, [⟨0, 5⟩, ⟨2, 3⟩], []⟩ ⟨0, 5⟩) e).open_time
            ∧ (body ⟨0, 0, [⟨0, 5⟩, ⟨2, 3⟩], []⟩ ⟨0, 5⟩).total_wait
              ≤ (body (body ⟨0, 0, [⟨0, 5⟩, ⟨2, 3⟩], []⟩ ⟨0, 5⟩) e).total_wait
            ∧ 0 ≤ (body (body ⟨0, 0, [⟨0, 5⟩, ⟨2, 3⟩], []⟩ ⟨0, 5⟩) e).open_time
            ∧ 0 ≤ (body (body ⟨0, 0, [⟨0, 5⟩, ⟨2, 3⟩], []⟩ ⟨0, 5⟩) e).total_wait
            ∧ (e.serving ≥ 0 →
                0 ≤ max e.time (body ⟨0, 0, [⟨0, 5⟩, ⟨2, 3⟩], []⟩ ⟨0, 5⟩).open_time - e.time
                  ∧ (body (body ⟨0, 0, [⟨0, 5⟩, ⟨2, 3⟩], []⟩ ⟨0, 5⟩) e).total_wait
                      = (body ⟨0, 0, [⟨0, 5⟩, ⟨2, 3⟩], []⟩ ⟨0, 5⟩).total_wait
                        + (max e.time (body ⟨0, 0, [⟨0, 5⟩, ⟨2, 3⟩], []⟩ ⟨0, 5⟩).open_time
                            - e.time)) :=
  ⟨Reachable.iteration _ _ Reachable.entry (by decide),
    open_time_total_wait_monotone [⟨0, 5⟩, ⟨2, 3⟩] _
      (Reachable.iteration _ _ Reachable.entry (by decide))⟩

/-- C12: an iteration of the loop of `simulate` that popped an event `e` with
`e.serving < 0` leaves `open_time` and `total_wait` as they were, leaves the
queue as it is after `e` was popped, and writes exactly one line, a departure
line carrying `e.time`; `count` is not written by the loop at all, `simulate`
reports the value it found. -/
theorem departure_step (st : SimState) (e : Event) (h : e.serving < 0) :
    (body st e).open_time = st.open_time
      ∧ (body st e).total_wait = st.total_wait
      ∧ (body st e).events = pop st.events e
      ∧ (body st e).log = st.log ++ [⟨e, none, .departure e.time⟩]
      ∧ (body st e).lines = st.lines ++ [.departure e.time]
      ∧ ∀ (tie : Nat → Nat) (el : EventList) (r : SimResult),
          simulate tie el = some r → r.report.count = el.count := by
  have h' : ¬ e.serving ≥ 0 := by omega
  refine ⟨by simp [body, h'], by simp [body, h'], by simp [body, h'], by simp [body, h'],
    by simp [body, h', SimState.lines], ?_⟩
  intro tie el r hr
  obtain ⟨st', -, -, hsim⟩ := simulate_returns tie el
  rw [hsim] at hr
  cases hr
  rfl

/-- C12, at a concrete state: the departure at 5 is retired from a queue that
also holds an arrival at 7. -/
theorem departure_step_witness :
    (-1 : Int) < 0
      ∧ (body ⟨5, 3, [⟨5, -1⟩, ⟨7, 2⟩], []⟩ ⟨5, -1⟩).open_time = 5
      ∧ (body ⟨5, 3, [⟨5, -1⟩, ⟨7, 2⟩], []⟩ ⟨5, -1⟩).total_wait = 3
      ∧ (body ⟨5, 3, [⟨5, -1⟩, ⟨7, 2⟩], []⟩ ⟨5, -1⟩).events = [⟨7, 2⟩]
      ∧ (body ⟨5, 3, [⟨5, -1⟩, ⟨7, 2⟩], []⟩ ⟨5, -1⟩).log
          = [⟨⟨5, -1⟩, none, .departure 5⟩]
      ∧ (body ⟨5, 3, [⟨5, -1⟩, ⟨7, 2⟩], []⟩ ⟨5, -1⟩).lines = [.departure 5]
      ∧ ∀ (tie : Nat → Nat) (el : EventList) (r : SimResult),
          simulate tie el = some r → r.report.count = el.count :=
  ⟨by decide, departure_step ⟨5, 3, [⟨5, -1⟩, ⟨7, 2⟩], []⟩ ⟨5, -1⟩ (by decide)⟩

/-! ## The recurrence, one customer more -/

theorem lastDeparture_append (d : Int) (is : Stream) (p : Int × Int) :
    lastDeparture d (is ++ [p]) = max p.1 (lastDeparture d is) + p.2 := by
  simp [lastDeparture, List.foldl_append]

theorem lastDeparture_cons (d : Int) (p : Int × Int) (is : Stream) :
    lastDeparture d (p :: is) = lastDeparture (max p.1 d + p.2) is :=
  rfl

theorem departureTimes_cons (d t s : Int) (rest : Stream) :
    departureTimes d ((t, s) :: rest)
      = (max t d + s) :: departureTimes (max t d + s) rest :=
  rfl

theorem waits_cons (d t s : Int) (rest : Stream) :
    waits d ((t, s) :: rest) = (max t d - t) :: waits (max t d + s) rest :=
  rfl

theorem arrivalLog_cons (d t s : Int) (rest : Stream) :
    arrivalLog d ((t, s) :: rest)
      = ⟨⟨t, s⟩, some ⟨max t d + s, -1⟩, .arrival t⟩ :: arrivalLog (max t d + s) rest :=
  rfl

theorem departureTimes_append (p : Int × Int) :
    ∀ (is : Stream) (d : Int),
      departureTimes d (is ++ [p])
        = departureTimes d is ++ [max p.1 (lastDeparture d is) + p.2] := by
  intro is
  induction is with
  | nil =>
    intro d
    obtain ⟨t, s⟩ := p
    rfl
  | cons q rest ih =>
    intro d
    obtain ⟨t, s⟩ := q
    rw [List.cons_append, departureTimes_cons, departureTimes_cons, ih, lastDeparture_cons,
      List.cons_append]

theorem waits_append (p : Int × Int) :
    ∀ (is : Stream) (d : Int),
      waits d (is ++ [p]) = waits d is ++ [max p.1 (lastDeparture d is) - p.1] := by
  intro is
  induction is with
  | nil =>
    intro d
    obtain ⟨t, s⟩ := p
    rfl
  | cons q rest ih =>
    intro d
    obtain ⟨t, s⟩ := q
    rw [List.cons_append, waits_cons, waits_cons, ih, lastDeparture_cons, List.cons_append]

theorem arrivalLog_append (p : Int × Int) :
    ∀ (is : Stream) (d : Int),
      arrivalLog d (is ++ [p])
        = arrivalLog d is
          ++ [⟨⟨p.1, p.2⟩, some ⟨max p.1 (lastDeparture d is) + p.2, -1⟩, .arrival p.1⟩] := by
  intro is
  induction is with
  | nil =>
    intro d
    obtain ⟨t, s⟩ := p
    rfl
  | cons q rest ih =>
    intro d
    obtain ⟨t, s⟩ := q
    rw [List.cons_append, arrivalLog_cons, arrivalLog_cons, ih, lastDeparture_cons,
      List.cons_append]

theorem departureTimes_getLast (is : Stream) (h : is ≠ []) (d : Int) :
    (departureTimes d is).getLast? = some (lastDeparture d is) := by
  obtain ⟨init, p, rfl⟩ : ∃ init p, is = init ++ [p] := by
    rcases List.eq_nil_or_concat is with h' | ⟨init, p, h'⟩
    · exact absurd h' h
    · exact ⟨init, p, by simpa using h'⟩
  rw [departureTimes_append, List.getLast?_concat, lastDeparture_append]

theorem arrivalLog_lines (is : Stream) :
    ∀ d : Int, (arrivalLog d is).map Iter.line = is.map (fun p => Line.arrival p.1) := by
  induction is with
  | nil => intro d; rfl
  | cons q rest ih =>
    intro d
    obtain ⟨t, s⟩ := q
    simp only [arrivalLog, List.map_cons, ih]

theorem arrivalLog_getElem (is : Stream) :
    ∀ (d : Int) (i : Nat) (p : Int × Int) (t : Int),
      is[i]? = some p → (departureTimes d is)[i]? = some t →
        (arrivalLog d is)[i]? = some ⟨Event.ofPair p, some ⟨t, -1⟩, .arrival p.1⟩ := by
  induction is with
  | nil =>
    intro d i p t h
    simp at h
  | cons q rest ih =>
    intro d i p t hp ht
    obtain ⟨a, b⟩ := q
    cases i with
    | zero =>
      simp only [List.getElem?_cons_zero, Option.some.injEq, departureTimes] at hp ht
      subst hp
      subst ht
      simp [arrivalLog, Event.ofPair]
    | succ i =>
      simp only [List.getElem?_cons_succ, departureTimes] at hp ht
      simp only [arrivalLog, List.getElem?_cons_succ]
      exact ih _ i p t hp ht

/-! ## Serving orders -/

theorem foldl_move_front {α β : Type} (step : β → α → β) (a : α) :
    ∀ (pre : List α), (∀ b ∈ pre, ∀ s, step (step s b) a = step (step s a) b) →
      ∀ s, (pre ++ [a]).foldl step s = pre.foldl step (step s a) := by
  intro pre
  induction pre with
  | nil => intro _ s; rfl
  | cons b rest ih =>
    intro hcomm s
    have hrest : ∀ c ∈ rest, ∀ s, step (step s c) a = step (step s a) c :=
      fun c hc => hcomm c (List.mem_cons_of_mem _ hc)
    simp only [List.cons_append, List.foldl_cons]
    rw [ih hrest, hcomm b (by simp)]

/-- Two orders of the same elements, both non-decreasing in `key`, give the same
fold when the steps of any two elements with the same key commute. -/
theorem foldl_sorted_perm {α β : Type} (key : α → Int) (step : β → α → β) :
    ∀ (l₁ l₂ : List α), l₁.Perm l₂ →
      l₁.Pairwise (fun a b => key a ≤ key b) → l₂.Pairwise (fun a b => key a ≤ key b) →
      (∀ a ∈ l₁, ∀ b ∈ l₁, key a = key b → ∀ s, step (step s a) b = step (step s b) a) →
      ∀ s, l₁.foldl step s = l₂.foldl step s := by
  intro l₁
  induction l₁ with
  | nil =>
    intro l₂ hperm _ _ _ s
    rw [List.nil_perm.mp hperm]
  | cons a rest ih =>
    intro l₂ hperm hs₁ hs₂ hcomm s
    have ha : a ∈ l₂ := hperm.subset (by simp)
    obtain ⟨pre, post, rfl⟩ := List.append_of_mem ha
    have hrest : rest.Perm (pre ++ post) :=
      (List.perm_cons a).mp (hperm.trans List.perm_middle)
    obtain ⟨hpre, hapost, hcross⟩ := List.pairwise_append.mp hs₂
    have hmin := (List.pairwise_cons.mp hs₁).1
    have hkey : ∀ b ∈ pre, key b = key a := by
      intro b hb
      have h1 : key b ≤ key a := hcross b hb a (by simp)
      have hb' : b ∈ rest := hrest.symm.subset (List.mem_append_left _ hb)
      have h2 : key a ≤ key b := hmin b hb'
      omega
    have hmove := foldl_move_front step a pre (by
      intro b hb s
      have hb' : b ∈ a :: rest := List.mem_cons_of_mem _
        (hrest.symm.subset (List.mem_append_left _ hb))
      exact hcomm b hb' a (by simp) (hkey b hb) s)
    have hsub : (pre ++ post).Pairwise (fun a b => key a ≤ key b) := by
      refine List.pairwise_append.mpr ⟨hpre, (List.pairwise_cons.mp hapost).2, ?_⟩
      intro x hx y hy
      exact hcross x hx y (List.mem_cons_of_mem _ hy)
    have hih := ih (pre ++ post) hrest (List.pairwise_cons.mp hs₁).2 hsub
      (fun x hx y hy => hcomm x (List.mem_cons_of_mem _ hx) y (List.mem_cons_of_mem _ hy))
      (step s a)
    calc (a :: rest).foldl step s
        = (pre ++ post).foldl step (step s a) := by rw [List.foldl_cons, hih]
      _ = post.foldl step ((pre ++ [a]).foldl step s) := by
          rw [List.foldl_append, hmove]
      _ = (pre ++ a :: post).foldl step s := by
          rw [List.foldl_append, List.foldl_append]
          rfl

/-- Two orders of the same elements, both non-decreasing in `key`, are the same
list when elements with the same key are equal. -/
theorem eq_of_sorted_perm {α : Type} (key : α → Int) (l₁ l₂ : List α) (hperm : l₁.Perm l₂)
    (hs₁ : l₁.Pairwise (fun a b => key a ≤ key b))
    (hs₂ : l₂.Pairwise (fun a b => key a ≤ key b))
    (heq : ∀ a ∈ l₁, ∀ b ∈ l₁, key a = key b → a = b) : l₁ = l₂ := by
  have h := foldl_sorted_perm key (fun (acc : List α) x => acc ++ [x]) l₁ l₂ hperm hs₁ hs₂
    (by
      intro a ha b hb hk s
      rw [heq a ha b hb hk]) []
  have hfold : ∀ (l acc : List α), l.foldl (fun acc x => acc ++ [x]) acc = acc ++ l := by
    intro l
    induction l with
    | nil => intro acc; simp
    | cons x rest ih => intro acc; simp [ih]
  simpa [hfold] using h

/-! ## The customers served -/

theorem served_append_arrival (log : List Iter) (it : Iter) (h : it.popped.serving ≥ 0) :
    served (log ++ [it]) = served log ++ [(it.popped.time, it.popped.serving)] := by
  simp [served, List.filter_append, List.filter_cons, h, Event.toPair]

theorem served_append_departure (log : List Iter) (it : Iter) (h : it.popped.serving < 0) :
    served (log ++ [it]) = served log := by
  have h' : ¬ it.popped.serving ≥ 0 := by omega
  simp [served, List.filter_append, List.filter_cons, h']

/-- The local variables `open_time` and `total_wait` are those of the recurrence
over the customers served so far. -/
theorem served_invariant (st : SimState) (e : Event)
    (hP : st.open_time = lastDeparture 0 (served st.log)
          ∧ st.total_wait = (waits 0 (served st.log)).sum)
    (_he : e ∈ tops st.events) :
    (body st e).open_time = lastDeparture 0 (served (body st e).log)
      ∧ (body st e).total_wait = (waits 0 (served (body st e).log)).sum := by
  obtain ⟨ho, hw⟩ := hP
  by_cases h : e.serving ≥ 0
  · rw [body_log_of_arrival st e h, served_append_arrival _ _ h, lastDeparture_append,
      waits_append, List.sum_append, ← ho, ← hw]
    simp [body, h]
  · have h' : e.serving < 0 := by omega
    rw [body_log_of_departure st e h', served_append_departure _ _ h', ← ho, ← hw]
    simp [body, h]

/-- The customers served so far and the customers still queued are, together,
the customers `base` of the initial queue. -/
theorem served_perm_invariant (base : Stream) (st : SimState) (e : Event)
    (hP : (served st.log
            ++ (st.events.filter (fun e => decide (e.serving ≥ 0))).map Event.toPair).Perm base)
    (he : e ∈ tops st.events) :
    (served (body st e).log
      ++ ((body st e).events.filter (fun e => decide (e.serving ≥ 0))).map
          Event.toPair).Perm base := by
  have hmem := ((mem_tops_iff _ _).mp he).1
  by_cases h : e.serving ≥ 0
  · have hp : (fun e : Event => decide (e.serving ≥ 0)) e = true := by simpa using h
    have hin : e ∈ st.events.filter (fun e => decide (e.serving ≥ 0)) :=
      List.mem_filter.mpr ⟨hmem, hp⟩
    rw [body_log_of_arrival st e h, served_append_arrival _ _ h,
      body_events_of_arrival st e h, List.filter_append, filter_erase_of_pos _ e hp]
    have hq : List.filter (fun e : Event => decide (e.serving ≥ 0))
        [⟨max e.time st.open_time + e.serving, -1⟩] = [] := by
      simp
    rw [hq, List.append_nil, List.append_assoc]
    refine List.Perm.trans ?_ hP
    refine List.Perm.append_left _ ?_
    have hperm := (List.perm_cons_erase hin).map Event.toPair
    exact hperm.symm
  · have h' : e.serving < 0 := by omega
    have hp : (fun e : Event => decide (e.serving ≥ 0)) e = false := by simpa using h'
    rw [body_log_of_departure st e h', served_append_departure _ _ h',
      body_events_of_departure st e h', filter_erase_of_neg _ e hp]
    exact hP

/-- The events popped so far were popped in non-decreasing order of time, and
none of them is later than a queued event. -/
theorem popped_order_invariant (st : SimState) (e : Event)
    (hP : (st.log.map Iter.popped).Pairwise (fun a b => a.time ≤ b.time)
          ∧ ∀ a ∈ st.log.map Iter.popped, ∀ x ∈ st.events, a.time ≤ x.time)
    (he : e ∈ tops st.events) :
    ((body st e).log.map Iter.popped).Pairwise (fun a b => a.time ≤ b.time)
      ∧ ∀ a ∈ (body st e).log.map Iter.popped, ∀ x ∈ (body st e).events,
          a.time ≤ x.time := by
  obtain ⟨hmem, hmin⟩ := (mem_tops_iff _ _).mp he
  obtain ⟨it, hlog, hpop, -⟩ := body_log st e
  obtain ⟨hsorted, hbound⟩ := hP
  rw [hlog, List.map_append, List.map_singleton, hpop]
  refine ⟨?_, ?_⟩
  · refine List.pairwise_append.mpr ⟨hsorted, List.pairwise_singleton _ _, ?_⟩
    intro a ha b hb
    rw [List.mem_singleton.mp hb]
    exact hbound a ha e hmem
  · intro a ha x hx
    have hex : e.time ≤ x.time := by
      rcases body_events_time st e x hx with hx | hx
      · exact hmin x hx
      · exact hx
    rcases List.mem_append.mp ha with ha | ha
    · exact le_trans (hbound a ha e hmem) hex
    · rw [List.mem_singleton.mp ha]
      exact hex

theorem fillLoop_chain :
    ∀ (is : Stream) (count : Nat) (evn : Event) (events : List Event) (el : EventList),
      fillLoop is count evn events = .ok el →
        List.Chain (· ≤ ·) evn.time (is.map Prod.fst) := by
  intro is
  induction is with
  | nil =>
    intro count evn events el _
    exact List.Chain.nil
  | cons p rest ih =>
    intro count evn events el h
    obtain ⟨arrival, time⟩ := p
    rw [fillLoop_cons] at h
    split at h
    · cases h
    · rename_i hle
      exact List.Chain.cons (by omega) (ih _ _ _ _ h)

theorem fill_sorted (is : Stream) (events : List Event) (el : EventList)
    (h : fill is events = .ok el) : is.Pairwise (fun p q => p.1 ≤ q.1) := by
  have hchain := fillLoop_chain is 0 ⟨0, 0⟩ events el h
  have hpair := (List.chain_iff_pairwise.mp hchain).of_cons
  exact List.pairwise_map.mp hpair

theorem toPair_ofPair (is : Stream) (h : ∀ p ∈ is, 0 ≤ p.2) :
    ((is.map Event.ofPair).filter (fun e => decide (e.serving ≥ 0))).map Event.toPair
      = is := by
  induction is with
  | nil => rfl
  | cons p rest ih =>
    have hp : 0 ≤ p.2 := h p (by simp)
    have hrest : ∀ q ∈ rest, 0 ≤ q.2 := fun q hq => h q (List.mem_cons_of_mem _ hq)
    simp only [List.map_cons]
    rw [List.filter_cons_of_pos (by simpa [Event.ofPair] using hp), List.map_cons, ih hrest]
    rfl

/-- What the loop of `simulate` has done when it is left, on the queue built by
`fill` from a stream with non-negative service durations: the customers were
served in an order that is non-decreasing in arrival time, and `open_time` and
`total_wait` are those of the recurrence over that order. -/
theorem simulate_final (tie : Nat → Nat) (is : Stream) (el : EventList)
    (hfill : fill is [] = .ok el) (hserving : ∀ p ∈ is, 0 ≤ p.2) :
    ∃ st, simLoop (iterations el.events) tie ⟨0, 0, el.events, []⟩ = some st
      ∧ simulate tie el = some ⟨st, ⟨is.length, st.total_wait, is.length⟩⟩
      ∧ st.events = []
      ∧ (served st.log).Perm is
      ∧ (served st.log).Pairwise (fun p q => p.1 ≤ q.1)
      ∧ is.Pairwise (fun p q => p.1 ≤ q.1)
      ∧ st.open_time = lastDeparture 0 (served st.log)
      ∧ st.total_wait = (waits 0 (served st.log)).sum := by
  obtain ⟨hev, hcount⟩ := fillLoop_ok is 0 ⟨0, 0⟩ [] el hfill
  simp only [List.nil_append, Nat.zero_add] at hev hcount
  obtain ⟨st, hloop, hempty, hsim⟩ := simulate_returns tie el
  have hS := simLoop_invariant _ served_invariant _ tie ⟨0, 0, el.events, []⟩ st
    (by simp [served, lastDeparture, waits]) hloop
  have hP := simLoop_invariant _ (served_perm_invariant is) _ tie ⟨0, 0, el.events, []⟩ st
    (by
      show (served [] ++ _).Perm is
      rw [hev, toPair_ofPair is hserving]
      simp [served]) hloop
  have hO := simLoop_invariant _ popped_order_invariant _ tie ⟨0, 0, el.events, []⟩ st
    (by simp) hloop
  rw [hempty] at hP
  simp only [List.filter_nil, List.map_nil, List.append_nil] at hP
  refine ⟨st, hloop, ?_, hempty, hP, ?_, fill_sorted is [] el hfill, hS.1, hS.2⟩
  · rw [hsim, hcount]
  · unfold served
    rw [List.pairwise_map]
    exact (hO.1.filter _).imp (fun h => h)

/-! ## First come, first served -/

theorem eq_of_strict (is : Stream) (h : is.Pairwise (fun p q => p.1 < q.1)) :
    ∀ a ∈ is, ∀ b ∈ is, a.1 = b.1 → a = b := by
  intro a ha b hb hab
  by_contra hne
  have hsym : Symmetric (fun p q : Int × Int => p.1 ≠ q.1) := fun _ _ hpq => Ne.symm hpq
  have hpair : is.Pairwise (fun p q => p.1 ≠ q.1) := h.imp (fun hlt => ne_of_lt hlt)
  exact hpair.forall hsym ha hb hne hab

/-- When no two distinct customers of the stream arrive at the same time, the
customers are served in stream order, whichever way ties are broken. -/
theorem simulate_fifo (tie : Nat → Nat) (is : Stream) (el : EventList)
    (hfill : fill is [] = .ok el) (hserving : ∀ p ∈ is, 0 ≤ p.2)
    (heq : ∀ a ∈ is, ∀ b ∈ is, a.1 = b.1 → a = b) :
    ∃ st, simLoop (iterations el.events) tie ⟨0, 0, el.events, []⟩ = some st
      ∧ simulate tie el = some ⟨st, ⟨is.length, st.total_wait, is.length⟩⟩
      ∧ st.events = []
      ∧ served st.log = is
      ∧ st.open_time = lastDeparture 0 is
      ∧ st.total_wait = (waits 0 is).sum := by
  obtain ⟨st, hloop, hsim, hempty, hperm, hs₁, hs₂, ho, hw⟩ :=
    simulate_final tie is el hfill hserving
  have hserved : served st.log = is :=
    eq_of_sorted_perm Prod.fst _ _ hperm hs₁ hs₂
      (fun a ha b hb hab => heq a (hperm.subset ha) b (hperm.subset hb) hab)
  rw [hserved] at ho hw
  exact ⟨st, hloop, hsim, hempty, hserved, ho, hw⟩

/-- C15 as stated fails: on the stream `0 5`, `0 3`, which `fill` accepts, both
events may be returned by `top` in the first iteration; serving `0 5` first
ends with `total_wait = 5`, serving `0 3` first ends with `total_wait = 3`. -/
theorem total_wait_depends_on_ties :
    fill [(0, 5), (0, 3)] [] = .ok ⟨2, [⟨0, 5⟩, ⟨0, 3⟩]⟩
      ∧ tops [⟨0, 5⟩, ⟨0, 3⟩] = [⟨0, 5⟩, ⟨0, 3⟩]
      ∧ (simulate (fun _ => 0) ⟨2, [⟨0, 5⟩, ⟨0, 3⟩]⟩).map (fun r => r.final.total_wait)
          = some 5
      ∧ (simulate (fun _ => 1) ⟨2, [⟨0, 5⟩, ⟨0, 3⟩]⟩).map (fun r => r.final.total_wait)
          = some 3 :=
  ⟨rfl, by decide, by decide, by decide⟩

/-- C15, amended: on the queue that `fill` builds from a stream with
non-negative service durations in which customers with the same arrival time
have the same service duration, `simulate` ends with the same `total_wait`,
and reports the same statistics, whichever event `top` returns among those of
minimum time in each iteration. -/
theorem total_wait_tie_independent (tie₁ tie₂ : Nat → Nat) (is : Stream) (el : EventList)
    (hfill : fill is [] = .ok el) (hserving : ∀ p ∈ is, 0 ≤ p.2)
    (hsame : ∀ p ∈ is, ∀ q ∈ is, p.1 = q.1 → p.2 = q.2) :
    ∃ r₁ r₂, simulate tie₁ el = some r₁ ∧ simulate tie₂ el = some r₂
      ∧ r₁.final.total_wait = r₂.final.total_wait
      ∧ r₁.report = r₂.report
      ∧ r₁.report.average = r₂.report.average := by
  have heq : ∀ a ∈ is, ∀ b ∈ is, a.1 = b.1 → a = b :=
    fun a ha b hb hab => Prod.ext hab (hsame a ha b hb hab)
  obtain ⟨st₁, -, hsim₁, -, -, -, hw₁⟩ := simulate_fifo tie₁ is el hfill hserving heq
  obtain ⟨st₂, -, hsim₂, -, -, -, hw₂⟩ := simulate_fifo tie₂ is el hfill hserving heq
  refine ⟨_, _, hsim₁, hsim₂, ?_, ?_, ?_⟩
  · show st₁.total_wait = st₂.total_wait
    rw [hw₁, hw₂]
  · show (⟨is.length, st₁.total_wait, is.length⟩ : Report) = ⟨is.length, st₂.total_wait, is.length⟩
    rw [hw₁, hw₂]
  · show Report.average ⟨is.length, st₁.total_wait, is.length⟩
      = Report.average ⟨is.length, st₂.total_wait, is.length⟩
    rw [hw₁, hw₂]

/-- C15, amended, at the stream `0 5`, `5 3`, `5 3`, where the departure at 5
and the two arrivals at 5 tie. -/
theorem total_wait_tie_independent_witness :
    (fill [(0, 5), (5, 3), (5, 3)] [] = .ok ⟨3, [⟨0, 5⟩, ⟨5, 3⟩, ⟨5, 3⟩]⟩
        ∧ (∀ p ∈ [((0 : Int), (5 : Int)), (5, 3), (5, 3)], 0 ≤ p.2)
        ∧ ∀ p ∈ [((0 : Int), (5 : Int)), (5, 3), (5, 3)],
            ∀ q ∈ [((0 : Int), (5 : Int)), (5, 3), (5, 3)], p.1 = q.1 → p.2 = q.2)
      ∧ ∃ r₁ r₂, simulate (fun _ => 0) ⟨3, [⟨0, 5⟩, ⟨5, 3⟩, ⟨5, 3⟩]⟩ = some r₁
        ∧ simulate (fun _ => 1) ⟨3, [⟨0, 5⟩, ⟨5, 3⟩, ⟨5, 3⟩]⟩ = some r₂
        ∧ r₁.final.total_wait = r₂.final.total_wait
        ∧ r₁.report = r₂.report
        ∧ r₁.report.average = r₂.report.average :=
  ⟨⟨rfl, by decide, by decide⟩,
    total_wait_tie_independent (fun _ => 0) (fun _ => 1) [(0, 5), (5, 3), (5, 3)]
      ⟨3, [⟨0, 5⟩, ⟨5, 3⟩, ⟨5, 3⟩]⟩ rfl (by decide) (by decide)⟩

/-! ## The last line -/

theorem body_open_time_of_arrival (st : SimState) (e : Event) (h : e.serving ≥ 0) :
    (body st e).open_time = max e.time st.open_time + e.serving := by
  simp [body, h]

theorem body_open_time_of_departure (st : SimState) (e : Event) (h : e.serving < 0) :
    (body st e).open_time = st.open_time := by
  have h' : ¬ e.serving ≥ 0 := by omega
  simp [body, h']

theorem body_lines_of_arrival (st : SimState) (e : Event) (h : e.serving ≥ 0) :
    (body st e).lines = st.lines ++ [.arrival e.time] := by
  simp [body, h, SimState.lines]

theorem body_lines_of_departure (st : SimState) (e : Event) (h : e.serving < 0) :
    (body st e).lines = st.lines ++ [.departure e.time] := by
  have h' : ¬ e.serving ≥ 0 := by omega
  simp [body, h', SimState.lines]

/-- No line written and no queued departure is later than `open_time`. -/
theorem bounded_invariant (st : SimState) (e : Event)
    (hP : (∀ l ∈ st.lines, l.time ≤ st.open_time)
          ∧ ∀ x ∈ st.events, x.serving < 0 → x.time ≤ st.open_time)
    (he : e ∈ tops st.events) :
    (∀ l ∈ (body st e).lines, l.time ≤ (body st e).open_time)
      ∧ ∀ x ∈ (body st e).events, x.serving < 0 → x.time ≤ (body st e).open_time := by
  have hmem := ((mem_tops_iff _ _).mp he).1
  obtain ⟨hl, hq⟩ := hP
  by_cases h : e.serving ≥ 0
  · have h1 := le_max_left e.time st.open_time
    have h2 := le_max_right e.time st.open_time
    rw [body_lines_of_arrival st e h, body_open_time_of_arrival st e h,
      body_events_of_arrival st e h]
    refine ⟨?_, ?_⟩
    · intro l hlm
      rcases List.mem_append.mp hlm with hlm | hlm
      · have := hl l hlm
        omega
      · rw [List.mem_singleton.mp hlm]
        show e.time ≤ _
        omega
    · intro x hx hneg
      rcases List.mem_append.mp hx with hx | hx
      · have := hq x (List.mem_of_mem_erase hx) hneg
        omega
      · rw [List.mem_singleton.mp hx]
  · have h' : e.serving < 0 := by omega
    rw [body_lines_of_departure st e h', body_open_time_of_departure st e h',
      body_events_of_departure st e h']
    refine ⟨?_, ?_⟩
    · intro l hlm
      rcases List.mem_append.mp hlm with hlm | hlm
      · exact hl l hlm
      · rw [List.mem_singleton.mp hlm]
        exact hq e hmem h'
    · intro x hx hneg
      exact hq x (List.mem_of_mem_erase hx) hneg

/-- Once a customer has been served, the departure at `open_time` is queued or
its line has been written. -/
theorem pending_invariant (st : SimState) (e : Event)
    (hP : served st.log = [] ∨ (⟨st.open_time, -1⟩ : Event) ∈ st.events
          ∨ Line.departure st.open_time ∈ st.lines)
    (_he : e ∈ tops st.events) :
    served (body st e).log = []
      ∨ (⟨(body st e).open_time, -1⟩ : Event) ∈ (body st e).events
      ∨ Line.departure (body st e).open_time ∈ (body st e).lines := by
  by_cases h : e.serving ≥ 0
  · right
    left
    rw [body_open_time_of_arrival st e h, body_events_of_arrival st e h]
    simp
  · have h' : e.serving < 0 := by omega
    rw [body_log_of_departure st e h', served_append_departure _ _ h',
      body_open_time_of_departure st e h', body_events_of_departure st e h',
      body_lines_of_departure st e h']
    rcases hP with hP | hP | hP
    · exact Or.inl hP
    · by_cases hed : (⟨st.open_time, -1⟩ : Event) = e
      · right
        right
        rw [← hed]
        simp
      · right
        left
        exact (List.mem_erase_of_ne hed).mpr hP
    · right
      right
      exact List.mem_append_left _ hP

/-- The last line written is a departure line unless the queue is not empty. -/
theorem last_line_invariant (st : SimState) (e : Event)
    (_hP : ∀ l, st.lines.getLast? = some l → l.isDeparture = true ∨ st.events ≠ [])
    (_he : e ∈ tops st.events) :
    ∀ l, (body st e).lines.getLast? = some l →
      l.isDeparture = true ∨ (body st e).events ≠ [] := by
  intro l hlast
  by_cases h : e.serving ≥ 0
  · right
    rw [body_events_of_arrival st e h]
    simp
  · have h' : e.serving < 0 := by omega
    left
    rw [body_lines_of_departure st e h', List.getLast?_concat] at hlast
    cases hlast
    rfl

theorem le_getLast_of_sorted (ts : List Int) (x : Int) (hs : List.Sorted (· ≤ ·) ts)
    (hlast : ts.getLast? = some x) : ∀ y ∈ ts, y ≤ x := by
  obtain ⟨init, rfl⟩ := List.getLast?_eq_some_iff.mp hlast
  obtain ⟨-, -, hcross⟩ := List.pairwise_append.mp hs
  intro y hy
  rcases List.mem_append.mp hy with hy | hy
  · exact hcross y hy x (by simp)
  · rw [List.mem_singleton.mp hy]

theorem lastDeparture_sorted_perm (l₁ l₂ : Stream) (hperm : l₁.Perm l₂)
    (hs₁ : l₁.Pairwise (fun p q => p.1 ≤ q.1)) (hs₂ : l₂.Pairwise (fun p q => p.1 ≤ q.1))
    (hserving : ∀ p ∈ l₁, 0 ≤ p.2) (d : Int) :
    lastDeparture d l₁ = lastDeparture d l₂ := by
  apply foldl_sorted_perm Prod.fst (fun d p => max p.1 d + p.2) l₁ l₂ hperm hs₁ hs₂
  intro a ha b hb hab s
  have h1 := hserving a ha
  have h2 := hserving b hb
  simp only [max_def]
  split_ifs <;> omega

/-- With `int` read as a mathematical integer: on the queue that `fill` builds
from a non-empty stream with non-negative service durations, the loop ends
with a departure line at the final `open_time` as the last line, and that value
is the last departure time of the recurrence over the stream. -/
theorem last_line_unbounded (tie : Nat → Nat) (is : Stream) (el : EventList)
    (hfill : fill is [] = .ok el) (hne : is ≠ []) (hserving : ∀ p ∈ is, 0 ≤ p.2) :
    ∃ st, simLoop (iterations el.events) tie ⟨0, 0, el.events, []⟩ = some st
      ∧ st.lines.getLast? = some (.departure st.open_time)
      ∧ (departureTimes 0 is).getLast? = some st.open_time := by
  obtain ⟨st, hloop, hsim, hempty, hperm, hs₁, hs₂, ho, -⟩ :=
    simulate_final tie is el hfill hserving
  obtain ⟨hev, -⟩ := fillLoop_ok is 0 ⟨0, 0⟩ [] el hfill
  simp only [List.nil_append] at hev
  have hopen : st.open_time = lastDeparture 0 is := by
    rw [ho]
    exact lastDeparture_sorted_perm _ _ hperm hs₁ hs₂
      (fun p hp => hserving p (hperm.subset hp)) 0
  have hB := simLoop_invariant _ bounded_invariant _ tie ⟨0, 0, el.events, []⟩ st
    (by
      refine ⟨by simp [SimState.lines], ?_⟩
      intro x hx hneg
      rw [hev] at hx
      obtain ⟨p, hp, rfl⟩ := List.mem_map.mp hx
      have := hserving p hp
      simp only [Event.ofPair] at hneg
      omega) hloop
  have hK := simLoop_invariant _ pending_invariant _ tie ⟨0, 0, el.events, []⟩ st
    (Or.inl (by simp [served])) hloop
  have hL := simLoop_invariant _ last_line_invariant _ tie ⟨0, 0, el.events, []⟩ st
    (by simp [SimState.lines]) hloop
  have hO := simLoop_invariant _ order_invariant _ tie ⟨0, 0, el.events, []⟩ st
    (by simp [SimState.lines]) hloop
  have hdep : Line.departure st.open_time ∈ st.lines := by
    rcases hK with hK | hK | hK
    · rw [hK] at hperm
      exact absurd (List.nil_perm.mp hperm) hne
    · rw [hempty] at hK
      simp at hK
    · exact hK
  obtain ⟨l, hl⟩ : ∃ l, st.lines.getLast? = some l := by
    cases hlast : st.lines.getLast? with
    | none =>
      rw [List.getLast?_eq_none_iff.mp hlast] at hdep
      simp at hdep
    | some l => exact ⟨l, rfl⟩
  have hldep : l.isDeparture = true := by
    rcases hL l hl with h | h
    · exact h
    · exact absurd hempty h
  have hlmem : l ∈ st.lines := List.mem_of_getLast?_eq_some hl
  have hle : l.time ≤ st.open_time := hB.1 l hlmem
  have hge : st.open_time ≤ l.time := by
    have hlast : (st.lines.map Line.time).getLast? = some l.time := by
      rw [List.getLast?_map, hl]
      rfl
    exact le_getLast_of_sorted _ _ hO.1 hlast st.open_time
      (List.mem_map.mpr ⟨_, hdep, rfl⟩)
  have hleq : l = Line.departure st.open_time := by
    cases l with
    | arrival t => simp [Line.isDeparture] at hldep
    | departure t =>
      simp only [Line.time] at hle hge
      have : t = st.open_time := by omega
      rw [this]
  refine ⟨st, hloop, ?_, ?_⟩
  · rw [hl, hleq]
  · rw [departureTimes_getLast is hne, hopen]

/-! ## The content of the log -/

/-- The lines written and the departures queued are those of the recurrence
over the customers served so far, and each arrival iteration is logged with the
departure of the recurrence as the event pushed. -/
theorem content_invariant (st : SimState) (e : Event)
    (hP : st.open_time = lastDeparture 0 (served st.log)
          ∧ (st.lines.filter Line.isDeparture
              ++ (st.events.filter Event.isDeparture).map
                  (fun x => Line.departure x.time)).Perm
              ((departureTimes 0 (served st.log)).map Line.departure)
          ∧ st.lines.filter Line.isArrival
              = (served st.log).map (fun p => Line.arrival p.1)
          ∧ st.log.filter (fun it => decide (it.popped.serving ≥ 0))
              = arrivalLog 0 (served st.log))
    (he : e ∈ tops st.events) :
    (body st e).open_time = lastDeparture 0 (served (body st e).log)
      ∧ ((body st e).lines.filter Line.isDeparture
          ++ ((body st e).events.filter Event.isDeparture).map
              (fun x => Line.departure x.time)).Perm
          ((departureTimes 0 (served (body st e).log)).map Line.departure)
      ∧ (body st e).lines.filter Line.isArrival
          = (served (body st e).log).map (fun p => Line.arrival p.1)
      ∧ (body st e).log.filter (fun it => decide (it.popped.serving ≥ 0))
          = arrivalLog 0 (served (body st e).log) := by
  have hmem := ((mem_tops_iff _ _).mp he).1
  obtain ⟨ho, hD, hA, hE⟩ := hP
  by_cases h : e.serving ≥ 0
  · have hdep : Event.isDeparture e = false := by
      simp only [Event.isDeparture, decide_eq_false_iff_not]
      omega
    have hd : Event.isDeparture ⟨max e.time st.open_time + e.serving, -1⟩ = true := by
      simp [Event.isDeparture]
    rw [body_open_time_of_arrival st e h, body_lines_of_arrival st e h,
      body_events_of_arrival st e h, body_log_of_arrival st e h,
      served_append_arrival _ _ h, lastDeparture_append, departureTimes_append,
      arrivalLog_append, ← ho]
    refine ⟨rfl, ?_, ?_, ?_⟩
    · rw [List.filter_append, List.filter_append, filter_erase_of_neg _ e hdep,
        List.filter_cons_of_pos hd, List.filter_nil, List.map_append, List.map_append,
        ← List.append_assoc]
      have hn : List.filter Line.isDeparture [Line.arrival e.time] = [] := by
        simp [Line.isDeparture]
      rw [hn, List.append_nil]
      exact hD.append_right _
    · rw [List.filter_append, hA, List.map_append]
      simp [Line.isArrival]
    · rw [List.filter_append, hE]
      simp [h]
  · have h' : e.serving < 0 := by omega
    have hdep : Event.isDeparture e = true := by
      simp only [Event.isDeparture, decide_eq_true_eq]
      exact h'
    have hin : e ∈ st.events.filter Event.isDeparture :=
      List.mem_filter.mpr ⟨hmem, hdep⟩
    rw [body_open_time_of_departure st e h', body_lines_of_departure st e h',
      body_events_of_departure st e h', body_log_of_departure st e h',
      served_append_departure _ _ h']
    refine ⟨ho, ?_, ?_, ?_⟩
    · rw [List.filter_append, filter_erase_of_pos _ e hdep]
      have hn : List.filter Line.isDeparture [Line.departure e.time]
          = [Line.departure e.time] := by
        simp [Line.isDeparture]
      rw [hn, List.append_assoc]
      refine List.Perm.trans (List.Perm.append_left _ ?_) hD
      exact ((List.perm_cons_erase hin).map (fun x => Line.departure x.time)).symm
    · rw [List.filter_append, hA]
      simp [Line.isArrival]
    · rw [List.filter_append, hE]
      simp [h]

theorem getElem?_append_some {α : Type} (l₁ l₂ : List α) (k : Nat) (x : α)
    (h : l₁[k]? = some x) : (l₁ ++ l₂)[k]? = some x := by
  have hk : k < l₁.length := by
    by_contra hc
    rw [List.getElem?_eq_none (by omega)] at h
    cases h
  rw [List.getElem?_append_left hk, h]

/-- Every event pushed is a departure, and it is still queued or a later
iteration popped it and wrote its departure line. -/
theorem precedence_invariant (st : SimState) (e : Event)
    (hP : ∀ (j : Nat) (it : Iter) (d : Event), st.log[j]? = some it → it.pushed = some d →
            d.serving < 0
              ∧ (d ∈ st.events
                  ∨ ∃ k, j < k ∧ st.log[k]? = some ⟨d, none, .departure d.time⟩))
    (_he : e ∈ tops st.events) :
    ∀ (j : Nat) (it : Iter) (d : Event), (body st e).log[j]? = some it →
      it.pushed = some d →
        d.serving < 0
          ∧ (d ∈ (body st e).events
              ∨ ∃ k, j < k ∧ (body st e).log[k]? = some ⟨d, none, .departure d.time⟩) := by
  intro j it d hj hpush
  by_cases hlt : j < st.log.length
  · have hold : st.log[j]? = some it := by
      by_cases h : e.serving ≥ 0
      · rw [body_log_of_arrival st e h, List.getElem?_append_left hlt] at hj
        exact hj
      · rw [body_log_of_departure st e (by omega), List.getElem?_append_left hlt] at hj
        exact hj
    obtain ⟨hneg, hcase⟩ := hP j it d hold hpush
    refine ⟨hneg, ?_⟩
    rcases hcase with hq | ⟨k, hjk, hk⟩
    · by_cases hde : d = e
      · right
        subst hde
        refine ⟨st.log.length, hlt, ?_⟩
        rw [body_log_of_departure st d hneg]
        exact List.getElem?_concat_length _ _
      · left
        by_cases h : e.serving ≥ 0
        · rw [body_events_of_arrival st e h]
          exact List.mem_append_left _ ((List.mem_erase_of_ne hde).mpr hq)
        · rw [body_events_of_departure st e (by omega)]
          exact (List.mem_erase_of_ne hde).mpr hq
    · right
      refine ⟨k, hjk, ?_⟩
      by_cases h : e.serving ≥ 0
      · rw [body_log_of_arrival st e h]
        exact getElem?_append_some _ _ _ _ hk
      · rw [body_log_of_departure st e (by omega)]
        exact getElem?_append_some _ _ _ _ hk
  · by_cases h : e.serving ≥ 0
    · rw [body_log_of_arrival st e h, List.getElem?_append_right (by omega)] at hj
      have hit : it = ⟨e, some ⟨max e.time st.open_time + e.serving, -1⟩, .arrival e.time⟩ := by
        cases hm : j - st.log.length with
        | zero =>
          rw [hm] at hj
          simpa using hj.symm
        | succ m =>
          rw [hm] at hj
          simp at hj
      subst hit
      simp only [Option.some.injEq] at hpush
      subst hpush
      refine ⟨by simp, Or.inl ?_⟩
      rw [body_events_of_arrival st e h]
      simp
    · rw [body_log_of_departure st e (by omega), List.getElem?_append_right (by omega)] at hj
      have hit : it = ⟨e, none, .departure e.time⟩ := by
        cases hm : j - st.log.length with
        | zero =>
          rw [hm] at hj
          simpa using hj.symm
        | succ m =>
          rw [hm] at hj
          simp at hj
      subst hit
      simp at hpush

theorem filter_not_isArrival (lines : List Line) :
    lines.filter (fun l => !Line.isArrival l) = lines.filter Line.isDeparture := by
  apply List.filter_congr
  intro l _
  cases l <;> rfl

/-- With `int` read as a mathematical integer: on the queue that `fill` builds
from a stream with strictly increasing arrival times and non-negative service
durations, the loop ends with `open_time` the last departure time of the
recurrence, the lines written are, up to order, the arrival lines at the `t_i`
and the departure lines at the `d_i`, and for each customer the iteration that
wrote the arrival line pushed the departure at `d_i`, which a later iteration
popped. -/
theorem log_content_unbounded (tie : Nat → Nat) (is : Stream) (el : EventList)
    (hfill : fill is [] = .ok el)
    (hstrict : (is.map Prod.fst).Pairwise (· < ·))
    (hserving : ∀ p ∈ is, 0 ≤ p.2) :
    ∃ st, simLoop (iterations el.events) tie ⟨0, 0, el.events, []⟩ = some st
      ∧ st.open_time = lastDeparture 0 is
      ∧ st.lines.Perm
          (is.map (fun p => Line.arrival p.1) ++ (departureTimes 0 is).map Line.departure)
      ∧ ∀ (i : Nat) (p : Int × Int) (d : Int),
          is[i]? = some p → (departureTimes 0 is)[i]? = some d →
            ∃ j k : Nat, j < k
              ∧ st.log[j]? = some (⟨Event.ofPair p, some ⟨d, -1⟩, .arrival p.1⟩ : Iter)
              ∧ st.log[k]? = some (⟨⟨d, -1⟩, none, .departure d⟩ : Iter)
              ∧ st.lines[j]? = some (Line.arrival p.1)
              ∧ st.lines[k]? = some (Line.departure d) := by
  obtain ⟨st, hloop, -, hempty, hserved, hopen, -⟩ :=
    simulate_fifo tie is el hfill hserving (eq_of_strict is (List.pairwise_map.mp hstrict))
  have hC := simLoop_invariant _ content_invariant _ tie ⟨0, 0, el.events, []⟩ st
    (by
      refine ⟨rfl, ?_, rfl, rfl⟩
      obtain ⟨hev, -⟩ := fillLoop_ok is 0 ⟨0, 0⟩ [] el hfill
      simp only [List.nil_append] at hev
      obtain ⟨-, -, hnone⟩ := countP_ofPair_of_nonneg is hserving
      show (List.filter Line.isDeparture (List.map Iter.line [])
        ++ (List.filter Event.isDeparture el.events).map _).Perm _
      rw [hev, hnone]
      simp [served, departureTimes]) hloop
  have hR := simLoop_invariant _ precedence_invariant _ tie ⟨0, 0, el.events, []⟩ st
    (by
      intro j it d hj
      simp at hj) hloop
  obtain ⟨-, hD, hA, hE⟩ := hC
  rw [hserved] at hD hA hE
  rw [hempty] at hD
  simp only [List.filter_nil, List.map_nil, List.append_nil] at hD
  refine ⟨st, hloop, hopen, ?_, ?_⟩
  · have hsplit := (List.filter_append_perm Line.isArrival st.lines).symm
    rw [filter_not_isArrival, hA] at hsplit
    exact hsplit.trans (List.Perm.append_left _ hD)
  · intro i p d hp hd
    have hentry := arrivalLog_getElem is 0 i p d hp hd
    rw [← hE] at hentry
    have hin : (⟨Event.ofPair p, some ⟨d, -1⟩, .arrival p.1⟩ : Iter) ∈ st.log :=
      List.mem_of_mem_filter (List.getElem?_mem hentry)
    obtain ⟨j, hj⟩ := List.getElem?_of_mem hin
    obtain ⟨-, hcase⟩ := hR j _ ⟨d, -1⟩ hj rfl
    rcases hcase with hq | ⟨k, hjk, hk⟩
    · rw [hempty] at hq
      simp at hq
    · refine ⟨j, k, hjk, hj, hk, ?_, ?_⟩
      · show (st.log.map Iter.line)[j]? = _
        rw [List.getElem?_map, hj]
        rfl
      · show (st.log.map Iter.line)[k]? = _
        rw [List.getElem?_map, hk]
        rfl

/-! ## The 32-bit loop when nothing overflows -/

theorem wrap32_of_range (x : Int) (h0 : 0 ≤ x) (h1 : x ≤ INT_MAX) : wrap32 x = x := by
  unfold wrap32
  unfold INT_MAX at h1
  omega

theorem body_monotone (st : SimState) (e : Event) :
    st.open_time ≤ (body st e).open_time ∧ st.total_wait ≤ (body st e).total_wait := by
  have h1 := le_max_left e.time st.open_time
  have h2 := le_max_right e.time st.open_time
  by_cases h : e.serving ≥ 0
  · have e1 : (body st e).open_time = max e.time st.open_time + e.serving := by
      simp [body, h]
    have e2 : (body st e).total_wait
        = st.total_wait + (max e.time st.open_time - e.time) := by
      simp [body, h]
    rw [e1, e2]
    constructor <;> omega
  · have e1 : (body st e).open_time = st.open_time := by simp [body, h]
    have e2 : (body st e).total_wait = st.total_wait := by simp [body, h]
    rw [e1, e2]
    exact ⟨le_refl _, le_refl _⟩

theorem simLoop_monotone (fuel : Nat) (tie : Nat → Nat) (st st' : SimState)
    (h : simLoop fuel tie st = some st') :
    st.open_time ≤ st'.open_time ∧ st.total_wait ≤ st'.total_wait :=
  simLoop_invariant
    (fun s => st.open_time ≤ s.open_time ∧ st.total_wait ≤ s.total_wait)
    (fun s e hP _ =>
      ⟨le_trans hP.1 (body_monotone s e).1, le_trans hP.2 (body_monotone s e).2⟩)
    fuel tie st st' ⟨le_refl _, le_refl _⟩ h

/-- One iteration on 32-bit `int` does what the iteration on mathematical
integers does, as far as `open_time`, the queue and the log go, when the new
`open_time` fits in an `int`; so does `total_wait` when it fits as well. -/
theorem body32_agrees (st s : SimState) (e : Event)
    (hopen : s.open_time = st.open_time) (hev : s.events = st.events)
    (hlog : s.log = st.log) (h0 : 0 ≤ st.open_time)
    (hmax : (body st e).open_time ≤ INT_MAX) :
    (body32 s e).open_time = (body st e).open_time
      ∧ (body32 s e).events = (body st e).events
      ∧ (body32 s e).log = (body st e).log
      ∧ (s.total_wait = st.total_wait → 0 ≤ st.total_wait →
          (body st e).total_wait ≤ INT_MAX →
            (body32 s e).total_wait = (body st e).total_wait) := by
  have h1 := le_max_left e.time st.open_time
  have h2 := le_max_right e.time st.open_time
  by_cases h : e.serving ≥ 0
  · have e1 : (body st e).open_time = max e.time st.open_time + e.serving := by
      simp [body, h]
    have e2 : (body st e).total_wait
        = st.total_wait + (max e.time st.open_time - e.time) := by
      simp [body, h]
    rw [e1] at hmax
    have hw : wrap32 (max e.time st.open_time + e.serving)
        = max e.time st.open_time + e.serving :=
      wrap32_of_range _ (by omega) hmax
    refine ⟨?_, ?_, ?_, ?_⟩
    · simp [body, body32, h, hopen, hw]
    · simp [body, body32, h, hopen, hev, hw]
    · simp [body, body32, h, hopen, hlog, hw]
    · intro htw h0w hmaxw
      rw [e2] at hmaxw ⊢
      have hd : wrap32 (max e.time st.open_time - e.time)
          = max e.time st.open_time - e.time :=
        wrap32_of_range _ (by omega) (by omega)
      have ht : wrap32 (st.total_wait + (max e.time st.open_time - e.time))
          = st.total_wait + (max e.time st.open_time - e.time) :=
        wrap32_of_range _ (by omega) hmaxw
      simp [body32, h, hopen, htw, hd, ht]
  · refine ⟨?_, ?_, ?_, ?_⟩
    · simp [body, body32, h, hopen]
    · simp [body, body32, h, hev]
    · simp [body, body32, h, hlog]
    · intro htw _ _
      simp [body, body32, h, htw]

theorem simLoop32_of_empty (fuel : Nat) (tie : Nat → Nat) (st : SimState)
    (h : st.events = []) : simLoop32 fuel tie st = some st := by
  cases fuel <;> simp [simLoop32, h]

theorem simLoop32_step (fuel : Nat) (tie : Nat → Nat) (st : SimState) (e : Event)
    (hne : st.events ≠ []) (he : top (tie 0) st.events = some e) :
    simLoop32 (fuel + 1) tie st = simLoop32 fuel (fun n => tie (n + 1)) (body32 st e) := by
  simp [simLoop32, hne, he]

/-- The loop on 32-bit `int` returns what the loop on mathematical integers
returns, as far as `open_time`, the queue and the log go, when the final
`open_time` fits in an `int`; so does `total_wait` when the final `total_wait`
fits as well. -/
theorem simLoop32_agrees :
    ∀ (fuel : Nat) (tie : Nat → Nat) (st s st' : SimState),
      simLoop fuel tie st = some st' →
      s.open_time = st.open_time → s.events = st.events → s.log = st.log →
      0 ≤ st.open_time → st'.open_time ≤ INT_MAX →
        ∃ s', simLoop32 fuel tie s = some s'
          ∧ s'.open_time = st'.open_time ∧ s'.events = st'.events ∧ s'.log = st'.log
          ∧ (s.total_wait = st.total_wait → 0 ≤ st.total_wait →
              st'.total_wait ≤ INT_MAX → s'.total_wait = st'.total_wait) := by
  intro fuel
  induction fuel with
  | zero =>
    intro tie st s st' hrun hopen hev hlog _ _
    by_cases hne : st.events = []
    · rw [simLoop_of_empty 0 tie st hne] at hrun
      cases hrun
      exact ⟨s, simLoop32_of_empty 0 tie s (by rw [hev, hne]), hopen, hev, hlog,
        fun htw _ _ => htw⟩
    · simp [simLoop, hne] at hrun
  | succ fuel ih =>
    intro tie st s st' hrun hopen hev hlog h0 hmax
    by_cases hne : st.events = []
    · rw [simLoop_of_empty _ tie st hne] at hrun
      cases hrun
      exact ⟨s, simLoop32_of_empty _ tie s (by rw [hev, hne]), hopen, hev, hlog,
        fun htw _ _ => htw⟩
    · obtain ⟨e, he⟩ := top_isSome (tie 0) st.events hne
      rw [simLoop_step fuel tie st e hne he] at hrun
      obtain ⟨hmo, hmw⟩ := simLoop_monotone _ _ _ _ hrun
      obtain ⟨hbo, hbw⟩ := body_monotone st e
      obtain ⟨a1, a2, a3, a4⟩ :=
        body32_agrees st s e hopen hev hlog h0 (le_trans hmo hmax)
      obtain ⟨s', hs', b1, b2, b3, b4⟩ :=
        ih _ (body st e) (body32 s e) st' hrun a1 a2 a3 (le_trans h0 hbo) hmax
      refine ⟨s', ?_, b1, b2, b3, ?_⟩
      · rw [simLoop32_step fuel tie s e (by rw [hev]; exact hne) (by rw [hev]; exact he)]
        exact hs'
      · intro htw h0w hmaxw
        exact b4 (a4 htw h0w (le_trans hmw hmaxw)) (le_trans h0w hbw) hmaxw

/-- What `simulate` on 32-bit `int` returns, given the state in which the loop
on mathematical integers ends and that its `open_time` fits in an `int`. -/
theorem simulate32_agrees (tie : Nat → Nat) (el : EventList) (st : SimState)
    (hrun : simLoop (iterations el.events) tie ⟨0, 0, el.events, []⟩ = some st)
    (hmax : st.open_time ≤ INT_MAX) :
    ∃ s, simulate32 tie el = some ⟨s, ⟨el.count, s.total_wait, el.count⟩⟩
      ∧ s.open_time = st.open_time ∧ s.events = st.events ∧ s.log = st.log
      ∧ (st.total_wait ≤ INT_MAX → s.total_wait = st.total_wait) := by
  obtain ⟨s, hs, b1, b2, b3, b4⟩ :=
    simLoop32_agrees _ tie ⟨0, 0, el.events, []⟩ ⟨0, 0, el.events, []⟩ st hrun rfl rfl rfl
      (le_refl _) hmax
  exact ⟨s, by simp [simulate32, hs], b1, b2, b3, fun h => b4 rfl (le_refl _) h⟩

theorem lastDeparture_le (is : Stream) (h : ∀ d ∈ departureTimes 0 is, d ≤ INT_MAX) :
    lastDeparture 0 is ≤ INT_MAX := by
  by_cases hne : is = []
  · subst hne
    decide
  · exact h _ (List.mem_of_getLast?_eq_some (departureTimes_getLast is hne 0))

/-! ## The recurrence and the program on 32-bit `int` -/

/-- C13 as stated fails: `fill` accepts the stream `0 2147483647`, `1 0`, `2 0`,
whose arrival times are strictly increasing and whose service durations are
non-negative; the waits of the recurrence add up to 4294967291, and `simulate`
on 32-bit `int` ends with `total_wait = -5`. On the empty stream, moreover,
the division that gives the average has no quotient. -/
theorem total_wait_wraps :
    fill [(0, 2147483647), (1, 0), (2, 0)] []
        = .ok ⟨3, [⟨0, 2147483647⟩, ⟨1, 0⟩, ⟨2, 0⟩]⟩
      ∧ ([((0 : Int), (2147483647 : Int)), (1, 0), (2, 0)].map Prod.fst).Pairwise (· < ·)
      ∧ (∀ p ∈ [((0 : Int), (2147483647 : Int)), (1, 0), (2, 0)], 0 ≤ p.2)
      ∧ (waits 0 [(0, 2147483647), (1, 0), (2, 0)]).sum = 4294967291
      ∧ (simulate32 (fun _ => 0) ⟨3, [⟨0, 2147483647⟩, ⟨1, 0⟩, ⟨2, 0⟩]⟩).map
            (fun r => (r.final.total_wait, r.report))
          = some (-5, ⟨3, -5, 3⟩)
      ∧ (simulate32 (fun _ => 0) ⟨0, []⟩).map (fun r => r.report.average) = some none :=
  ⟨rfl, by simp, by decide, by decide, by decide, by decide⟩

/-- C13, amended: on the queue that `fill` builds from a stream with strictly
increasing arrival times and non-negative service durations for which every
departure time `d_i` of the recurrence and the sum of its waits `w_i` fit in a
32-bit `int`, `simulate` on 32-bit `int` returns with `total_wait` the sum of
the `w_i` and reports the count `n`; the operands of the division that gives
the average are that sum and `n`, and for `n ≥ 1` their exact quotient is
`(sum of w_i) / n`. -/
theorem fifo_wait_without_overflow (tie : Nat → Nat) (is : Stream) (el : EventList)
    (hfill : fill is [] = .ok el)
    (hstrict : (is.map Prod.fst).Pairwise (· < ·))
    (hserving : ∀ p ∈ is, 0 ≤ p.2)
    (hdep : ∀ d ∈ departureTimes 0 is, d ≤ INT_MAX)
    (hwait : (waits 0 is).sum ≤ INT_MAX) :
    ∃ r, simulate32 tie el = some r
      ∧ r.final.total_wait = (waits 0 is).sum
      ∧ r.report.count = is.length
      ∧ r.report.dividend = (waits 0 is).sum
      ∧ r.report.divisor = is.length
      ∧ (is ≠ [] →
          r.report.average
            = some ((((waits 0 is).sum : Int) : ℚ) / ((is.length : Nat) : ℚ))) := by
  obtain ⟨-, hcount⟩ := fillLoop_ok is 0 ⟨0, 0⟩ [] el hfill
  simp only [Nat.zero_add] at hcount
  obtain ⟨st, hloop, -, -, -, ho, hw⟩ :=
    simulate_fifo tie is el hfill hserving (eq_of_strict is (List.pairwise_map.mp hstrict))
  obtain ⟨s, hsim, -, -, -, htw⟩ :=
    simulate32_agrees tie el st hloop (by rw [ho]; exact lastDeparture_le is hdep)
  have hs : s.total_wait = (waits 0 is).sum := by
    rw [htw (by rw [hw]; exact hwait), hw]
  refine ⟨_, hsim, hs, hcount, hs, hcount, ?_⟩
  intro hne
  have hlen : is.length ≠ 0 := fun h => hne (List.length_eq_zero.mp h)
  simp [Report.average, hcount, hlen, hs]

/-- C13, amended, at the stream `0 5`, `2 3`: count 2, total wait `0 + 3`,
average `3 / 2`. -/
theorem fifo_wait_without_overflow_witness :
    (fill [(0, 5), (2, 3)] [] = .ok ⟨2, [⟨0, 5⟩, ⟨2, 3⟩]⟩
        ∧ ([((0 : Int), (5 : Int)), (2, 3)].map Prod.fst).Pairwise (· < ·)
        ∧ (∀ p ∈ [((0 : Int), (5 : Int)), (2, 3)], 0 ≤ p.2)
        ∧ (∀ d ∈ departureTimes 0 [(0, 5), (2, 3)], d ≤ INT_MAX)
        ∧ (waits 0 [(0, 5), (2, 3)]).sum ≤ INT_MAX)
      ∧ ∃ r, simulate32 (fun _ => 0) ⟨2, [⟨0, 5⟩, ⟨2, 3⟩]⟩ = some r
        ∧ r.final.total_wait = ([0, 3] : List Int).sum
        ∧ r.report.count = 2
        ∧ r.report.dividend = ([0, 3] : List Int).sum
        ∧ r.report.divisor = 2
        ∧ ([((0 : Int), (5 : Int)), (2, 3)] ≠ [] →
            r.report.average
              = some ((((waits 0 [(0, 5), (2, 3)]).sum : Int) : ℚ)
                  / (([((0 : Int), (5 : Int)), (2, 3)].length : Nat) : ℚ))) :=
  ⟨⟨rfl, by simp, by decide, by decide, by decide⟩,
    fifo_wait_without_overflow (fun _ => 0) [(0, 5), (2, 3)] ⟨2, [⟨0, 5⟩, ⟨2, 3⟩]⟩ rfl
      (by simp) (by decide) (by decide) (by decide)⟩

/-- C14 as stated fails: `fill` accepts the stream `0 2147483647`, `1 1`, whose
arrival times are strictly increasing and whose service durations are
non-negative; the recurrence gives `d_2 = 2147483648`, and `simulate` on 32-bit
`int` writes the departure line at `-2147483648` instead, before the
departure line at `2147483647`. -/
theorem departure_line_wraps :
    fill [(0, 2147483647), (1, 1)] [] = .ok ⟨2, [⟨0, 2147483647⟩, ⟨1, 1⟩]⟩
      ∧ ([((0 : Int), (2147483647 : Int)), (1, 1)].map Prod.fst).Pairwise (· < ·)
      ∧ (∀ p ∈ [((0 : Int), (2147483647 : Int)), (1, 1)], 0 ≤ p.2)
      ∧ departureTimes 0 [(0, 2147483647), (1, 1)] = [2147483647, 2147483648]
      ∧ (simulate32 (fun _ => 0) ⟨2, [⟨0, 2147483647⟩, ⟨1, 1⟩]⟩).map SimResult.lines
          = some [.arrival 0, .arrival 1, .departure (-2147483648), .departure 2147483647]
      ∧ Line.departure 2147483648
          ∉ [Line.arrival 0, .arrival 1, .departure (-2147483648), .departure 2147483647] :=
  ⟨rfl, by simp, by decide, by decide, by decide, by decide⟩

/-- C14, amended: on the queue that `fill` builds from a stream with strictly
increasing arrival times and non-negative service durations for which every
departure time `d_i` of the recurrence `d_i = max(t_i, d_{i-1}) + s_i`,
`d_0 = 0`, fits in a 32-bit `int`, `simulate` on 32-bit `int` returns and the
lines it wrote are, up to order, the arrival lines at the `t_i` together with
the departure lines at the `d_i`; for each customer `i` the arrival line at
`t_i` is written by an iteration that pushes the departure at `d_i`, and a
later iteration pops that departure and writes the departure line at `d_i`. -/
theorem log_content_without_overflow (tie : Nat → Nat) (is : Stream) (el : EventList)
    (hfill : fill is [] = .ok el)
    (hstrict : (is.map Prod.fst).Pairwise (· < ·))
    (hserving : ∀ p ∈ is, 0 ≤ p.2)
    (hdep : ∀ d ∈ departureTimes 0 is, d ≤ INT_MAX) :
    ∃ r, simulate32 tie el = some r
      ∧ r.lines.Perm
          (is.map (fun p => Line.arrival p.1) ++ (departureTimes 0 is).map Line.departure)
      ∧ ∀ (i : Nat) (p : Int × Int) (d : Int),
          is[i]? = some p → (departureTimes 0 is)[i]? = some d →
            ∃ j k : Nat, j < k
              ∧ r.final.log[j]? = some (⟨Event.ofPair p, some ⟨d, -1⟩, .arrival p.1⟩ : Iter)
              ∧ r.final.log[k]? = some (⟨⟨d, -1⟩, none, .departure d⟩ : Iter)
              ∧ r.lines[j]? = some (Line.arrival p.1)
              ∧ r.lines[k]? = some (Line.departure d) := by
  obtain ⟨st, hloop, ho, hperm, hprec⟩ :=
    log_content_unbounded tie is el hfill hstrict hserving
  obtain ⟨s, hsim, -, -, hlog, -⟩ :=
    simulate32_agrees tie el st hloop (by rw [ho]; exact lastDeparture_le is hdep)
  have hlines : s.lines = st.lines := by simp [SimState.lines, hlog]
  refine ⟨_, hsim, ?_, ?_⟩
  · show s.lines.Perm _
    rw [hlines]
    exact hperm
  · intro i p d hp hd
    obtain ⟨j, k, hjk, h1, h2, h3, h4⟩ := hprec i p d hp hd
    refine ⟨j, k, hjk, ?_, ?_, ?_, ?_⟩
    · show s.log[j]? = _
      rw [hlog]
      exact h1
    · show s.log[k]? = _
      rw [hlog]
      exact h2
    · show s.lines[j]? = _
      rw [hlines]
      exact h3
    · show s.lines[k]? = _
      rw [hlines]
      exact h4

/-- C14, amended, at the stream `0 5`, `2 3`: the lines are the arrivals at 0
and 2 and the departures at 5 and 8, the arrival at 2 coming before the
departure at 5. -/
theorem log_content_without_overflow_witness :
    (fill [(0, 5), (2, 3)] [] = .ok ⟨2, [⟨0, 5⟩, ⟨2, 3⟩]⟩
        ∧ ([((0 : Int), (5 : Int)), (2, 3)].map Prod.fst).Pairwise (· < ·)
        ∧ (∀ p ∈ [((0 : Int), (5 : Int)), (2, 3)], 0 ≤ p.2)
        ∧ ∀ d ∈ departureTimes 0 [(0, 5), (2, 3)], d ≤ INT_MAX)
      ∧ (simulate32 (fun _ => 0) ⟨2, [⟨0, 5⟩, ⟨2, 3⟩]⟩).map SimResult.lines
          = some [.arrival 0, .arrival 2, .departure 5, .departure 8]
      ∧ ∃ r, simulate32 (fun _ => 0) ⟨2, [⟨0, 5⟩, ⟨2, 3⟩]⟩ = some r
        ∧ r.lines.Perm
            ([.arrival 0, .arrival 2] ++ (departureTimes 0 [(0, 5), (2, 3)]).map Line.departure)
        ∧ ∀ (i : Nat) (p : Int × Int) (d : Int),
            [((0 : Int), (5 : Int)), (2, 3)][i]? = some p →
              (departureTimes 0 [(0, 5), (2, 3)])[i]? = some d →
                ∃ j k : Nat, j < k
                  ∧ r.final.log[j]? = some (⟨Event.ofPair p, some ⟨d, -1⟩, .arrival p.1⟩ : Iter)
                  ∧ r.final.log[k]? = some (⟨⟨d, -1⟩, none, .departure d⟩ : Iter)
                  ∧ r.lines[j]? = some (Line.arrival p.1)
                  ∧ r.lines[k]? = some (Line.departure d) :=
  ⟨⟨rfl, by simp, by decide, by decide⟩, by decide,
    log_content_without_overflow (fun _ => 0) [(0, 5), (2, 3)] ⟨2, [⟨0, 5⟩, ⟨2, 3⟩]⟩ rfl
      (by simp) (by decide) (by decide)⟩

/-- C16 as stated fails: `fill` accepts the non-empty stream `2147483647 1`,
whose service duration is non-negative; the recurrence gives
`d_1 = 2147483648`, and `simulate` on 32-bit `int` ends with
`open_time = -2147483648` and the departure line at `-2147483648` as its last
line. -/
theorem last_line_wraps :
    fill [(2147483647, 1)] [] = .ok ⟨1, [⟨2147483647, 1⟩]⟩
      ∧ (∀ p ∈ [((2147483647 : Int), (1 : Int))], 0 ≤ p.2)
      ∧ (departureTimes 0 [(2147483647, 1)]).getLast? = some 2147483648
      ∧ (simulate32 (fun _ => 0) ⟨1, [⟨2147483647, 1⟩]⟩).map
            (fun r => (r.final.open_time, r.lines.getLast?))
          = some (-2147483648, some (.departure (-2147483648))) :=
  ⟨rfl, by decide, by decide, by decide⟩

/-- C16, amended: on the queue that `fill` builds from a non-empty stream with
non-negative service durations, arrival times possibly repeated, for which
every departure time `d_i` of the recurrence over the stream in stream order
fits in a 32-bit `int`, `simulate` on 32-bit `int` returns, the last line it
wrote is a departure line, the time of that line is the final `open_time`, and
that value is the last departure time `d_n`, whichever event `top` returns
among those of minimum time in each iteration. -/
theorem last_line_without_overflow (tie : Nat → Nat) (is : Stream) (el : EventList)
    (hfill : fill is [] = .ok el) (hne : is ≠ []) (hserving : ∀ p ∈ is, 0 ≤ p.2)
    (hdep : ∀ d ∈ departureTimes 0 is, d ≤ INT_MAX) :
    ∃ r, simulate32 tie el = some r
      ∧ r.lines.getLast? = some (.departure r.final.open_time)
      ∧ (departureTimes 0 is).getLast? = some r.final.open_time := by
  obtain ⟨st, hloop, hlast, hd⟩ := last_line_unbounded tie is el hfill hne hserving
  obtain ⟨s, hsim, hopen, -, hlog, -⟩ :=
    simulate32_agrees tie el st hloop (hdep _ (List.mem_of_getLast?_eq_some hd))
  have hlines : s.lines = st.lines := by simp [SimState.lines, hlog]
  refine ⟨_, hsim, ?_, ?_⟩
  · show s.lines.getLast? = some (.departure s.open_time)
    rw [hlines, hopen]
    exact hlast
  · show _ = some s.open_time
    rw [hopen]
    exact hd

/-- C16, amended, at the stream `0 5`, `0 3`, the customer `0 3` being served
first: the last line is the departure at 8. -/
theorem last_line_without_overflow_witness :
    (fill [(0, 5), (0, 3)] [] = .ok ⟨2, [⟨0, 5⟩, ⟨0, 3⟩]⟩
        ∧ [((0 : Int), (5 : Int)), (0, 3)] ≠ []
        ∧ (∀ p ∈ [((0 : Int), (5 : Int)), (0, 3)], 0 ≤ p.2)
        ∧ ∀ d ∈ departureTimes 0 [(0, 5), (0, 3)], d ≤ INT_MAX)
      ∧ (simulate32 (fun _ => 1) ⟨2, [⟨0, 5⟩, ⟨0, 3⟩]⟩).map
            (fun r => (r.final.open_time, r.lines.getLast?))
          = some (8, some (.departure 8))
      ∧ ∃ r, simulate32 (fun _ => 1) ⟨2, [⟨0, 5⟩, ⟨0, 3⟩]⟩ = some r
        ∧ r.lines.getLast? = some (.departure r.final.open_time)
        ∧ (departureTimes 0 [(0, 5), (0, 3)]).getLast? = some r.final.open_time :=
  ⟨⟨rfl, by decide, by decide, by decide⟩, by decide,
    last_line_without_overflow (fun _ => 1) [(0, 5), (0, 3)] ⟨2, [⟨0, 5⟩, ⟨0, 3⟩]⟩ rfl
      (by decide) (by decide) (by decide)⟩

end BankSim
